import Mathlib

/-!
# Sparkle Meeting server: room/member lifecycle and SFU signalling

A shallow embedding of `room/room.go`, `room/member.go`, `room/manager.go`, the
create-room handler of `router/router.go`, the message struct of `model/message.go` and
the SFU room of `webrtc/sfu.go`.

Go pointers are references into an explicit heap: a `*Room` is an index into
`State.rooms`, a `*Member` an index into `State.members`.  A Go run-time panic (nil
dereference, `close` of a closed channel, send on a closed channel) is the result `none`
of `Join`, `Leave` and `Broadcast`; the heap that the panic leaves behind is given by
`LeaveOutcome` and `BroadcastOutcome`.
Go maps are association lists with distinct keys; `len` is the length of the list.
Values produced by `uuid.NewString()` are supplied by the caller.
-/

namespace Sparkle

/-- A `[]byte` message. -/
abbrev Bytes := List Nat

/-- A `*Member`. -/
abbrev MemberRef := Nat

/-- A `*Room`. -/
abbrev RoomRef := Nat

/-! ## Go maps -/

/-- Lookup `m[k]` of a Go map kept as an association list. -/
def mapGet {κ β : Type} [DecidableEq κ] : List (κ × β) → κ → Option β
  | [], _ => none
  | (k, v) :: rest, i => if k = i then some v else mapGet rest i

/-- The builtin `delete(m, k)`. -/
def mapDelete {κ β : Type} [DecidableEq κ] : List (κ × β) → κ → List (κ × β)
  | [], _ => []
  | (k, v) :: rest, i => if k = i then mapDelete rest i else (k, v) :: mapDelete rest i

/-- The assignment `m[k] = v`. -/
def mapSet {κ β : Type} [DecidableEq κ] (t : List (κ × β)) (i : κ) (v : β) : List (κ × β) :=
  (i, v) :: mapDelete t i

/-! ## Channels -/

/-- A buffered Go channel `chan []byte`: the queued messages (oldest first), the
capacity given to `make`, and whether `close` has been called. -/
structure Chan where
  buf : List Bytes
  cap : Nat
  closed : Bool
deriving DecidableEq, Repr

/-- The statement `make(chan []byte, n)`. -/
def Chan.make (n : Nat) : Chan := { buf := [], cap := n, closed := false }

/-- The builtin `close(c)`; panics on a channel that is already closed. -/
def Chan.close (c : Chan) : Option Chan :=
  if c.closed then none else some { c with closed := true }

/-- The non-blocking send `select { case c <- msg: default: }`.  The result is the channel
and whether the send case was taken.  A send on a closed channel panics. -/
def Chan.trySend (c : Chan) (msg : Bytes) : Option (Chan × Bool) :=
  if c.closed then none
  else if c.buf.length < c.cap then some ({ c with buf := c.buf ++ [msg] }, true)
  else some (c, false)

/-! ## The WebRTC stack seen from the SFU

The peer connection of `pion/webrtc` is outside the repository.  Each peer keeps the log
of the calls made on its connection together with their outcome; the outcome of a call is
given by a `Stack`, a function of the calls made so far on that connection. -/

/-- The type `webrtc.SDPType`, as far as the SFU uses it. -/
inductive SDPType
  | offer
  | answer
deriving DecidableEq, Repr

/-- The type `webrtc.ICECandidateInit`. -/
structure ICECandidateInit where
  Candidate : String
  SDPMid : Option String
  SDPMLineIndex : Option Nat
deriving DecidableEq, Repr

/-- A call made on a `*webrtc.PeerConnection`. -/
inductive StackCall
  | setRemoteDescription (sdp : String) (ty : SDPType)
  | addICECandidate (c : ICECandidateInit)
  | addTrack (trackID : String)
  | removeTrack (trackID : String)
  | createAnswer
  | createOffer
  | setLocalDescription (sdp : String)
  | close
deriving DecidableEq, Repr

/-- A call together with its outcome (`true`: the error returned was `nil`). -/
structure StackEvent where
  call : StackCall
  ok : Bool
deriving DecidableEq, Repr

/-- The type `webrtc.SignalingState`, as far as the SFU distinguishes it. -/
inductive SignalingState
  | stable
  | haveLocalOffer
  | haveRemoteOffer
  | closed
deriving DecidableEq, Repr

/-- The type `webrtc.ICEConnectionState`. -/
inductive ICEConnectionState
  | new
  | checking
  | connected
  | completed
  | disconnected
  | failed
  | closed
deriving DecidableEq, Repr

/-- The behaviour of the WebRTC stack on one peer connection: every answer is a function
of the history of calls on that connection. -/
structure Stack where
  setRemoteDescription : List StackEvent → String → SDPType → Bool
  addICECandidate : List StackEvent → ICECandidateInit → Bool
  addTrack : List StackEvent → String → Bool
  removeTrack : List StackEvent → String → Bool
  setLocalDescription : List StackEvent → String → Bool
  /-- The description made by `CreateAnswer(nil)`, or `none` for an error. -/
  createAnswer : List StackEvent → Option String
  /-- The description made by `CreateOffer(nil)`, or `none` for an error. -/
  createOffer : List StackEvent → Option String
  /-- The SDP of `LocalDescription()` once gathering is complete. -/
  localDescription : List StackEvent → String
  signalingState : List StackEvent → SignalingState
  iceConnectionState : List StackEvent → ICEConnectionState

/-! ## SFU data model (`webrtc/sfu.go`) -/

/-- The struct `SFUPeer`.  `calls` is the log of the peer connection.  The timers that
`time.AfterFunc` makes for the peer are numbered in the order in which they are made:
`timersMade` is their number so far, `armedTimers` maps every timer that is still to fire
(neither stopped nor fired) to the time in ms at which it fires, and `renegotiationTimer`,
the pointer of the struct, is the number of the timer made last, `none` for `nil`. -/
structure SFUPeer where
  calls : List StackEvent
  id : String
  pendingCandidates : List ICECandidateInit
  remoteDescriptionSet : Bool
  forwardedTracks : List (String × Bool)
  renegotiationTimer : Option Nat
  armedTimers : List (Nat × Nat)
  timersMade : Nat
deriving DecidableEq, Repr

/-- The struct `trackForward`.  The local and the remote track are identified by the
track id under which the forward is stored; a sender handle is identified by the peer and
the track it was made for. -/
structure TrackForward where
  stopChanClosed : Bool
  senderID : String
  senders : List (String × (String × String))
deriving DecidableEq, Repr

/-- The struct `SFURoom`.  A callback is identified by a number. -/
structure SFURoom where
  peers : List (String × SFUPeer)
  roomID : String
  forwardedTracks : List (String × TrackForward)
  onRenegotiationNeeded : Option Nat
deriving DecidableEq, Repr

/-- The function `NewSFURoom`. -/
def NewSFURoom (roomID : String) : SFURoom :=
  { peers := [], roomID := roomID, forwardedTracks := [], onRenegotiationNeeded := none }

/-- The method `SFURoom.Close`: closes every peer connection and empties the peer table. -/
def SFURoom.Close (r : SFURoom) : SFURoom :=
  { r with peers := [] }

/-! ## Signalling messages (`model/message.go`) -/

/-- The type `MessageType`. -/
abbrev MessageType := String

def SignalTypeOffer : MessageType := "offer"

def SignalTypeAnswer : MessageType := "answer"

def SignalTypeCandidate : MessageType := "candidate"

/-- The struct `SignalMessage`; `Typ` is its field `Type`, `Data` the raw JSON payload. -/
structure SignalMessage where
  Typ : MessageType
  Data : Bytes
  FromUser : String
  FromName : String
  ToUser : String
  RoomID : String
  Time : Int
deriving DecidableEq, Repr

/-- The struct `SessionDescription`; `Typ` is its field `Type`. -/
structure SessionDescription where
  Typ : String
  Sdp : String
deriving DecidableEq, Repr

/-- The struct `IceCandidate`. -/
structure IceCandidate where
  Candidate : String
  SdpMLineIndex : Option Nat
  SdpMid : Option String
deriving DecidableEq, Repr

/-- The package `encoding/json`, as far as the SFU uses it: `none` is a returned error. -/
structure Json where
  marshalSignal : SignalMessage → Option Bytes
  marshalSDP : SessionDescription → Bytes
  unmarshalSDP : Bytes → Option SessionDescription
  unmarshalCandidate : Bytes → Option IceCandidate

/-- The errors returned by the SFU. -/
inductive SFUError
  | peerNotFound (peerID : String)
  | peerExists (peerID : String)
  | newPeerConnection
  | parseData
  | unknownSDPType (typeStr : String)
  | stack (call : StackCall)
  | unknownMessageType (t : MessageType)
  | marshal
deriving DecidableEq, Repr

/-! ## SFU peer operations (`webrtc/sfu.go`) -/

/-- Records a call and its outcome in the log of the peer connection. -/
def SFUPeer.record (p : SFUPeer) (c : StackCall) (ok : Bool) : SFUPeer :=
  { p with calls := p.calls ++ [{ call := c, ok := ok }] }

/-- The peer made by `SFURoom.AddPeer`. -/
def SFUPeer.fresh (peerID : String) : SFUPeer :=
  { calls := [], id := peerID, pendingCandidates := [], remoteDescriptionSet := false,
    forwardedTracks := [], renegotiationTimer := none, armedTimers := [], timersMade := 0 }

/-- The method `SFURoom.AddPeer`; `pcOk` tells whether `NewPeerConnection` succeeds.  The
two handlers that it installs on the connection run when the stack calls them: `OnTrack`
is the call `SFURoom.BroadcastTrack`, and `OnICEConnectionStateChange`, for the states
connected and completed, is the call `SFURoom.iceConnected` 500 ms later. -/
def SFURoom.AddPeer (pcOk : Bool) (r : SFURoom) (peerID : String) :
    SFURoom × Except SFUError SFUPeer :=
  match mapGet r.peers peerID with
  | some _ => (r, .error (.peerExists peerID))
  | none =>
    if pcOk then
      ({ r with peers := mapSet r.peers peerID (SFUPeer.fresh peerID) }, .ok (SFUPeer.fresh peerID))
    else (r, .error .newPeerConnection)

/-- The method `SFURoom.RemovePeer`. -/
def SFURoom.RemovePeer (r : SFURoom) (peerID : String) : SFURoom :=
  match mapGet r.peers peerID with
  | some _ => { r with peers := mapDelete r.peers peerID }
  | none => r

/-- The loop of `processPendingCandidates`: every candidate is passed to the stack, an
error being logged only. -/
def SFUPeer.applyCandidates (stk : Stack) (p : SFUPeer) : List ICECandidateInit → SFUPeer
  | [] => p
  | c :: rest =>
    SFUPeer.applyCandidates stk (p.record (.addICECandidate c) (stk.addICECandidate p.calls c)) rest

/-- The method `SFUPeer.processPendingCandidates`. -/
def SFUPeer.processPendingCandidates (stk : Stack) (p : SFUPeer) : SFUPeer :=
  { SFUPeer.applyCandidates stk p p.pendingCandidates with pendingCandidates := [] }

/-- The `switch typeStr` of `SetRemoteDescription`. -/
def sdpTypeOf (typeStr : String) : Option SDPType :=
  if typeStr = "offer" then some .offer
  else if typeStr = "answer" then some .answer
  else none

/-- The peer after a successful `SetRemoteDescription` of the stack: the call is logged,
the flag is set and the pending candidates are processed. -/
def SFUPeer.remoteDescriptionApplied (stk : Stack) (p : SFUPeer) (sdp : String)
    (ty : SDPType) : SFUPeer :=
  SFUPeer.processPendingCandidates stk
    { p.record (.setRemoteDescription sdp ty) true with remoteDescriptionSet := true }

/-- The method `SFUPeer.SetRemoteDescription`. -/
def SFUPeer.SetRemoteDescription (stk : Stack) (p : SFUPeer) (sdp typeStr : String) :
    SFUPeer × Except SFUError Unit :=
  match sdpTypeOf typeStr with
  | none => (p, .error (.unknownSDPType typeStr))
  | some ty =>
    if stk.setRemoteDescription p.calls sdp ty then
      (p.remoteDescriptionApplied stk sdp ty, .ok ())
    else
      (p.record (.setRemoteDescription sdp ty) false,
       .error (.stack (.setRemoteDescription sdp ty)))

/-- The method `SFUPeer.AddICECandidate`. -/
def SFUPeer.AddICECandidate (stk : Stack) (p : SFUPeer) (candidateStr : String)
    (sdpMid : Option String) (sdpMLineIndex : Option Nat) : SFUPeer × Except SFUError Unit :=
  let candidate : ICECandidateInit :=
    { Candidate := candidateStr, SDPMid := sdpMid, SDPMLineIndex := sdpMLineIndex }
  if !p.remoteDescriptionSet then
    ({ p with pendingCandidates := p.pendingCandidates ++ [candidate] }, .ok ())
  else
    let ok := stk.addICECandidate p.calls candidate
    (p.record (.addICECandidate candidate) ok,
     if ok then .ok () else .error (.stack (.addICECandidate candidate)))

/-- The method `SFUPeer.CreateAnswer`.  The error of `SetLocalDescription` is dropped by
the code; the wait for the end of ICE gathering is taken to return. -/
def SFUPeer.CreateAnswer (stk : Stack) (p : SFUPeer) : SFUPeer × Except SFUError String :=
  match stk.createAnswer p.calls with
  | none => (p.record .createAnswer false, .error (.stack .createAnswer))
  | some answer =>
    let p1 := p.record .createAnswer true
    let p2 := p1.record (.setLocalDescription answer) (stk.setLocalDescription p1.calls answer)
    (p2, .ok (stk.localDescription p2.calls))

/-- The method `Timer.Stop` on timer `k`: the timer is to fire no more; a timer that has
fired or was stopped before is left as it is. -/
def stopTimer (armed : List (Nat × Nat)) (k : Nat) : List (Nat × Nat) :=
  mapDelete armed k

/-- The method `SFUPeer.scheduleRenegotiation`, called at time `now`: when the pointer
`renegotiationTimer` is not `nil` the timer it points to is stopped; then `time.AfterFunc`
makes a new timer, to fire `delay` ms later, and the pointer is set to it. -/
def SFUPeer.scheduleRenegotiation (p : SFUPeer) (now delay : Nat) : SFUPeer :=
  { p with
    renegotiationTimer := some p.timersMade
    armedTimers :=
      (match p.renegotiationTimer with
        | some k => stopTimer p.armedTimers k
        | none => p.armedTimers) ++ [(p.timersMade, now + delay)]
    timersMade := p.timersMade + 1 }

/-- The method `SFURoom.addTrackToPeer`, on the peer.  The results are `.ok none` for
`(nil, nil)`, `.ok (some h)` for a sender handle and `.error` for the error of
`AddTrack`.  The goroutine that drains RTCP has no effect on the state. -/
def addTrackToPeer (stk : Stack) (now : Nat) (peer : SFUPeer) (trackID : String) :
    SFUPeer × Except SFUError (Option (String × String)) :=
  if (mapGet peer.forwardedTracks trackID).getD false then (peer, .ok none)
  else
    let ok := stk.addTrack peer.calls trackID
    let p1 := peer.record (.addTrack trackID) ok
    if ok then
      let p2 := { p1 with forwardedTracks := mapSet p1.forwardedTracks trackID true }
      (p2.scheduleRenegotiation now 300, .ok (some (peer.id, trackID)))
    else (p1, .error (.stack (.addTrack trackID)))

/-- The loop `for trackID, forward := range r.forwardedTracks` of the offer branch of
`HandleSignalMessage`, over the entries of the forward table. -/
def attachForwards (stk : Stack) (now : Nat) (peerID : String) (peer : SFUPeer) :
    List (String × TrackForward) → SFUPeer
  | [] => peer
  | (trackID, forward) :: rest =>
    if forward.senderID = peerID then attachForwards stk now peerID peer rest
    else if (mapGet peer.forwardedTracks trackID).getD false then
      attachForwards stk now peerID peer rest
    else attachForwards stk now peerID (addTrackToPeer stk now peer trackID).1 rest

/-- Stores the peer back under its id: the table holds pointers, so every change made to
the peer is a change of the room. -/
def SFURoom.putPeer (r : SFURoom) (peerID : String) (p : SFUPeer) : SFURoom :=
  { r with peers := mapSet r.peers peerID p }

/-- The method `SFURoom.HandleSignalMessage`.  `stk` gives the behaviour of the
connection of each peer, `now` the time of the call in ms. -/
def SFURoom.HandleSignalMessage (stk : String → Stack) (js : Json) (now : Nat) (r : SFURoom)
    (peerID : String) (msg : SignalMessage) : SFURoom × Except SFUError (Option Bytes) :=
  match mapGet r.peers peerID with
  | none => (r, .error (.peerNotFound peerID))
  | some peer =>
    if msg.Typ = SignalTypeOffer then
      match js.unmarshalSDP msg.Data with
      | none => (r, .error .parseData)
      | some sdp =>
        match SFUPeer.SetRemoteDescription (stk peerID) peer sdp.Sdp "offer" with
        | (p1, .error e) => (r.putPeer peerID p1, .error e)
        | (p1, .ok _) =>
          let p2 := attachForwards (stk peerID) now peerID p1 r.forwardedTracks
          match SFUPeer.CreateAnswer (stk peerID) p2 with
          | (p3, .error e) => (r.putPeer peerID p3, .error e)
          | (p3, .ok answerSDP) =>
            let resp : SignalMessage :=
              { Typ := SignalTypeAnswer,
                Data := js.marshalSDP { Typ := "answer", Sdp := answerSDP },
                FromUser := "", FromName := "", ToUser := "", RoomID := "", Time := 0 }
            (r.putPeer peerID p3,
             match js.marshalSignal resp with
             | some bytes => .ok (some bytes)
             | none => .error .marshal)
    else if msg.Typ = SignalTypeAnswer then
      match js.unmarshalSDP msg.Data with
      | none => (r, .error .parseData)
      | some sdp =>
        match SFUPeer.SetRemoteDescription (stk peerID) peer sdp.Sdp "answer" with
        | (p1, .error e) => (r.putPeer peerID p1, .error e)
        | (p1, .ok _) => (r.putPeer peerID p1, .ok none)
    else if msg.Typ = SignalTypeCandidate then
      match js.unmarshalCandidate msg.Data with
      | none => (r, .error .parseData)
      | some cand =>
        match SFUPeer.AddICECandidate (stk peerID) peer cand.Candidate cand.SdpMid
            cand.SdpMLineIndex with
        | (p1, .error e) => (r.putPeer peerID p1, .error e)
        | (p1, .ok _) => (r.putPeer peerID p1, .ok none)
    else (r, .error (.unknownMessageType msg.Typ))

/-- A call on one SFU peer: `AddICECandidate` or `SetRemoteDescription`. -/
inductive PeerCall
  | addICECandidate (candidateStr : String) (sdpMid : Option String)
      (sdpMLineIndex : Option Nat)
  | setRemoteDescription (sdp typeStr : String)
deriving DecidableEq, Repr

/-- The peer after a call, and whether the call returned a `nil` error. -/
def SFUPeer.call (stk : Stack) (p : SFUPeer) : PeerCall → SFUPeer × Bool
  | .addICECandidate c mid idx =>
    match SFUPeer.AddICECandidate stk p c mid idx with
    | (p1, .ok _) => (p1, true)
    | (p1, .error _) => (p1, false)
  | .setRemoteDescription sdp typeStr =>
    match SFUPeer.SetRemoteDescription stk p sdp typeStr with
    | (p1, .ok _) => (p1, true)
    | (p1, .error _) => (p1, false)

/-- The peer after a sequence of calls. -/
def SFUPeer.calls_run (stk : Stack) (p : SFUPeer) : List PeerCall → SFUPeer
  | [] => p
  | c :: cs => SFUPeer.calls_run stk (SFUPeer.call stk p c).1 cs

/-- The candidates received by the `AddICECandidate` calls of a sequence, in order. -/
def receivedCandidates : List PeerCall → List ICECandidateInit
  | [] => []
  | .addICECandidate c mid idx :: cs =>
    { Candidate := c, SDPMid := mid, SDPMLineIndex := idx } :: receivedCandidates cs
  | .setRemoteDescription _ _ :: cs => receivedCandidates cs

/-- The candidates passed to `AddICECandidate` of the stack in a log, in order. -/
def appliedCandidates : List StackEvent → List ICECandidateInit
  | [] => []
  | ⟨.addICECandidate c, _⟩ :: es => c :: appliedCandidates es
  | _ :: es => appliedCandidates es

/-- The tracks passed to `AddTrack` of the stack in a log, in order. -/
def addedTracks : List StackEvent → List String
  | [] => []
  | ⟨.addTrack t, _⟩ :: es => t :: addedTracks es
  | _ :: es => addedTracks es

/-! ## Room and member data model (`room/room.go`, `room/member.go`) -/

/-- The struct `Member` (without the socket and the manager pointer). -/
structure Member where
  index : String
  name : String
  room : Option RoomRef
  roomIndex : Int
  send : Chan
  sfuPeerID : String
deriving DecidableEq, Repr

/-- The struct `Room` (without the lock). -/
structure Room where
  uuid : String
  name : String
  master : String
  limits : Int
  member : List (Int × MemberRef)
  sfu : SFURoom
deriving DecidableEq, Repr

/-- The heap: every `Room` and every `Member` allocated so far. -/
structure State where
  rooms : List Room
  members : List Member
deriving DecidableEq, Repr

/-- The empty heap. -/
def State.init : State := { rooms := [], members := [] }

/-- The function `NewRoom`; `id` and `sfuID` are the two `uuid.NewString()` values.  The
result is the new heap and the pointer to the room. -/
def NewRoom (s : State) (name masterID : String) (limits : Int) (id sfuID : String) :
    State × RoomRef :=
  ({ s with rooms := s.rooms ++ [{ uuid := id, name := name, master := masterID,
                                   limits := limits, member := [],
                                   sfu := NewSFURoom sfuID }] },
   s.rooms.length)

/-- The function `NewMember`; `freshID` and `peerID` are the two `uuid.NewString()`
values. -/
def NewMember (s : State) (userID name : String) (freshID peerID : String) :
    State × MemberRef :=
  ({ s with members := s.members ++ [{ index := if userID = "" then freshID else userID,
                                       name := name, room := none, roomIndex := -1,
                                       send := Chan.make 256, sfuPeerID := peerID }] },
   s.members.length)

/-- The loop `for i := 1; i <= r.limits; i++` of `Join`, from counter `i`, as far as its
first empty slot; `fuel` bounds the number of iterations. -/
def joinScan (tbl : List (Int × MemberRef)) (limits : Int) : Nat → Int → Option Int
  | 0, _ => none
  | fuel + 1, i =>
    if i ≤ limits then
      match mapGet tbl i with
      | none => some i
      | some _ => joinScan tbl limits fuel (i + 1)
    else none

/-- The method `Room.Join`. -/
def Join (s : State) (r : RoomRef) (m : MemberRef) : Option (State × Bool) :=
  match s.rooms[r]?, s.members[m]? with
  | some room, some mem =>
    if 0 < mem.roomIndex then some (s, false)
    else if room.limits ≤ (room.member.length : Int) then some (s, false)
    else
      match joinScan room.member room.limits room.limits.toNat 1 with
      | some i =>
        some ({ rooms := s.rooms.set r { room with member := mapSet room.member i m },
                members := s.members.set m { mem with room := some r, roomIndex := i } },
              true)
      | none => some (s, false)
  | _, _ => none

/-- The loop `for _, mem := range r.member` of the owner branch of `Leave`: closes the
send queue of every member of the table and clears its room pointer and slot; `none` when
a `close` panics (`dissolveLoop` gives the members as the panic leaves them). -/
def dissolveAll (ms : List Member) : List (Int × MemberRef) → Option (List Member)
  | [] => some ms
  | (_, m) :: rest =>
    match ms[m]? with
    | none => none
    | some mem =>
      match mem.send.close with
      | none => none
      | some ch => dissolveAll (ms.set m { mem with send := ch, room := none, roomIndex := -1 }) rest

/-- The method `Room.Leave`, as far as it returns: `none` when it panics.  The heap that
the panic leaves behind is given by `LeaveOutcome`. -/
def Leave (s : State) (r : RoomRef) (m : MemberRef) : Option (State × Bool) :=
  match s.rooms[r]?, s.members[m]? with
  | some room, some mem =>
    if mem.roomIndex < 0 ∨ mem.room ≠ some r then some (s, false)
    else if mem.index = room.master then
      match dissolveAll s.members room.member with
      | none => none
      | some ms =>
        some ({ rooms := s.rooms.set r { room with member := [], sfu := room.sfu.Close },
                members := ms }, true)
    else
      match mapGet room.member mem.roomIndex with
      | some _ =>
        match mem.send.close with
        | none => none
        | some ch =>
          let tbl := mapDelete room.member mem.roomIndex
          let ms := s.members.set m { mem with send := ch, room := none, roomIndex := -1 }
          if tbl.length = 0 then
            some ({ rooms := s.rooms.set r { room with member := tbl, sfu := room.sfu.Close },
                    members := ms }, true)
          else
            some ({ rooms := s.rooms.set r { room with member := tbl }, members := ms }, false)
      | none =>
        if room.member.length = 0 then
          some ({ s with rooms := s.rooms.set r { room with sfu := room.sfu.Close } }, true)
        else some (s, false)
  | _, _ => none

/-- The loop of `Room.Broadcast` over the entries of the table. -/
def broadcastAll (ms : List Member) (msg : Bytes) (senderID : String) :
    List (Int × MemberRef) → Option (List Member)
  | [] => some ms
  | (_, m) :: rest =>
    match ms[m]? with
    | none => none
    | some mem =>
      if mem.index = senderID then broadcastAll ms msg senderID rest
      else
        match mem.send.trySend msg with
        | none => none
        | some (ch, _) => broadcastAll (ms.set m { mem with send := ch }) msg senderID rest

/-- The method `Room.Broadcast`. -/
def Broadcast (s : State) (r : RoomRef) (msg : Bytes) (senderID : String) : Option State :=
  match s.rooms[r]? with
  | none => none
  | some room =>
    match broadcastAll s.members msg senderID room.member with
    | none => none
    | some ms => some { s with members := ms }

/-- A call of the room package. -/
inductive Call
  | newRoom (name masterID : String) (limits : Int) (id sfuID : String)
  | newMember (userID name freshID peerID : String)
  | join (r : RoomRef) (m : MemberRef)
  | leave (r : RoomRef) (m : MemberRef)
  | broadcast (r : RoomRef) (msg : Bytes) (senderID : String)
deriving DecidableEq, Repr

/-- The heap after a call that returns; `none` when the call panics. -/
def step (s : State) : Call → Option State
  | .newRoom name masterID limits id sfuID => some (NewRoom s name masterID limits id sfuID).1
  | .newMember userID name freshID peerID => some (NewMember s userID name freshID peerID).1
  | .join r m => (Join s r m).map Prod.fst
  | .leave r m => (Leave s r m).map Prod.fst
  | .broadcast r msg senderID => Broadcast s r msg senderID

/-- The heap after a sequence of calls, each of which returns. -/
def exec (s : State) : List Call → Option State
  | [] => some s
  | c :: cs => (step s c).bind fun s' => exec s' cs

/-- The states reached from the empty heap by `NewRoom`, `NewMember`, `Join`, `Leave` and
`Broadcast` calls that all return. -/
def Reachable (s : State) : Prop := ∃ cs, exec State.init cs = some s


/-! ## Well-formed heaps -/

/-- The member after the clean-up of `Leave`: send queue closed, room pointer `nil`,
slot `-1`. -/
def Member.dissolved (mem : Member) : Member :=
  { mem with send := { mem.send with closed := true }, room := none, roomIndex := -1 }

/-- The member after a message has been put at the end of its send queue. -/
def Member.enqueued (mem : Member) (msg : Bytes) : Member :=
  { mem with send := { mem.send with buf := mem.send.buf ++ [msg] } }

/-- The fields of a member that `Broadcast` does not write. -/
def Member.frame (mem : Member) : String × String × Option RoomRef × Int × Nat × Bool × String :=
  (mem.index, mem.name, mem.room, mem.roomIndex, mem.send.cap, mem.send.closed, mem.sfuPeerID)

/-- The table of a room: distinct slot numbers, each in `1..limits`, each holding a
member that points back to the room and to the slot. -/
def RoomWF (s : State) (r : RoomRef) (room : Room) : Prop :=
  (room.member.map Prod.fst).Nodup ∧
  ∀ i m, (i, m) ∈ room.member →
    1 ≤ i ∧ i ≤ room.limits ∧
    ∃ mem, s.members[m]? = some mem ∧ mem.room = some r ∧ mem.roomIndex = i

/-- A member is either outside every room, with slot `-1`, or held by the table of the
room it points to, at its slot; its send queue has capacity 256. -/
def MemberWF (s : State) (m : MemberRef) (mem : Member) : Prop :=
  mem.send.cap = 256 ∧
  ((mem.room = none ∧ mem.roomIndex = -1) ∨
    ∃ r room, mem.room = some r ∧ s.rooms[r]? = some room ∧ (mem.roomIndex, m) ∈ room.member)

/-- The invariant of the heap. -/
def WF (s : State) : Prop :=
  (∀ r room, s.rooms[r]? = some room → RoomWF s r room) ∧
  (∀ m mem, s.members[m]? = some mem → MemberWF s m mem)

/-! ## Two concrete heaps -/

/-- A room of capacity 3 owned by user `o`; the owner and user `a` join it, user `b` is
created and stays outside. -/
def demoTrace : List Call :=
  [.newRoom "R" "o" 3 "room-1" "sfu-1",
   .newMember "o" "Olga" "u-0" "peer-0",
   .newMember "a" "Ann" "u-1" "peer-1",
   .newMember "b" "Bob" "u-2" "peer-2",
   .join 0 0,
   .join 0 1]

/-- The room of `demoTrace` after the trace. -/
def demoRoom : Room :=
  { uuid := "room-1", name := "R", master := "o", limits := 3, member := [(2, 1), (1, 0)],
    sfu := NewSFURoom "sfu-1" }

/-- The heap after `demoTrace`. -/
def demoState : State :=
  { rooms := [demoRoom],
    members :=
      [{ index := "o", name := "Olga", room := some 0, roomIndex := 1, send := Chan.make 256,
         sfuPeerID := "peer-0" },
       { index := "a", name := "Ann", room := some 0, roomIndex := 2, send := Chan.make 256,
         sfuPeerID := "peer-1" },
       { index := "b", name := "Bob", room := none, roomIndex := -1, send := Chan.make 256,
         sfuPeerID := "peer-2" }] }

/-- After `demoTrace`, user `a` leaves the room and joins it again: `Leave` has closed
the send queue of `a`, and `Join` installs the member all the same. -/
def rejoinTrace : List Call := demoTrace ++ [.leave 0 1, .join 0 1]

/-- The heap after `rejoinTrace`. -/
def rejoinState : State :=
  { rooms := [demoRoom],
    members :=
      [{ index := "o", name := "Olga", room := some 0, roomIndex := 1, send := Chan.make 256,
         sfuPeerID := "peer-0" },
       { index := "a", name := "Ann", room := some 0, roomIndex := 2,
         send := { buf := [], cap := 256, closed := true }, sfuPeerID := "peer-1" },
       { index := "b", name := "Bob", room := none, roomIndex := -1, send := Chan.make 256,
         sfuPeerID := "peer-2" }] }

/-! ## Calls that panic

A panic unwinds the call, and the writes made before it stay in the heap: the deferred
`Unlock` runs, and a caller that recovers (the `Recovery` handler of `gin.Default()`)
goes on with that heap. -/

/-- A stack that accepts every call, but for the ICE candidate `bad`, which it rejects. -/
def demoStack : Stack :=
  { setRemoteDescription := fun _ _ _ => true
    addICECandidate := fun _ c => decide (c.Candidate ≠ "bad")
    addTrack := fun _ _ => true
    removeTrack := fun _ _ => true
    setLocalDescription := fun _ _ => true
    createAnswer := fun _ => some "v=0 answer"
    createOffer := fun _ => some "v=0 offer"
    localDescription := fun _ => "v=0 answer"
    signalingState := fun _ => .stable
    iceConnectionState := fun _ => .connected }

/-- The stack `demoStack` with a `CreateAnswer` that returns an error. -/
def noAnswerStack : Stack :=
  { demoStack with createAnswer := fun _ => none }

/-- A stand-in for `encoding/json`: a payload decodes to an offer whose SDP has the bytes
of the payload as characters. -/
def demoJson : Json :=
  { marshalSignal := fun msg => some (msg.Typ.toList.map Char.toNat ++ msg.Data)
    marshalSDP := fun sd => sd.Sdp.toList.map Char.toNat
    unmarshalSDP := fun d => some { Typ := "offer", Sdp := String.mk (d.map Char.ofNat) }
    unmarshalCandidate := fun _ => none }

/-- An SFU room with the peers `alice` and `bob` and two forwards: `audio-1` from
`alice` and `video-2` from `bob`. -/
def demoSFU : SFURoom :=
  { peers := [("bob", SFUPeer.fresh "bob"), ("alice", SFUPeer.fresh "alice")]
    roomID := "sfu-1"
    forwardedTracks :=
      [("audio-1", { stopChanClosed := false, senderID := "alice", senders := [] }),
       ("video-2", { stopChanClosed := false, senderID := "bob", senders := [] })]
    onRenegotiationNeeded := none }

/-- An offer whose payload is `v=0`. -/
def demoOffer : SignalMessage :=
  { Typ := SignalTypeOffer, Data := [118, 61, 48], FromUser := "u-bob", FromName := "Bob",
    ToUser := "", RoomID := "", Time := 0 }

/-! ## SFU room operations: renegotiation and track forwarding (`webrtc/sfu.go`) -/

/-- The method `SFURoom.SetRenegotiationCallback`; `none` is the `nil` function value. -/
def SFURoom.SetRenegotiationCallback (r : SFURoom) (callback : Option Nat) : SFURoom :=
  match r.onRenegotiationNeeded with
  | none => { r with onRenegotiationNeeded := callback }
  | some _ => r

/-- A call of the renegotiation callback: the callback, the peer id and the offer SDP. -/
structure OfferSent where
  callback : Nat
  peerID : String
  offer : String
deriving DecidableEq, Repr

/-- The three guards of `createAndSendOffer`: the remote description is set, the
signaling state is stable and the ICE connection is connected or completed. -/
def renegotiationGuards (stk : Stack) (peer : SFUPeer) : Bool :=
  peer.remoteDescriptionSet &&
    decide (stk.signalingState peer.calls = .stable) &&
    (decide (stk.iceConnectionState peer.calls = .connected) ||
      decide (stk.iceConnectionState peer.calls = .completed))

/-- The method `SFURoom.createAndSendOffer`: the peer afterwards and the call of the
callback, if one is made.  The error of `SetLocalDescription` is dropped by the code; the
wait for the end of ICE gathering is taken to return. -/
def SFURoom.createAndSendOffer (stk : Stack) (r : SFURoom) (peer : SFUPeer) :
    SFUPeer × Option OfferSent :=
  if !peer.remoteDescriptionSet then (peer, none)
  else if stk.signalingState peer.calls ≠ .stable then (peer, none)
  else if stk.iceConnectionState peer.calls ≠ .connected ∧
      stk.iceConnectionState peer.calls ≠ .completed then (peer, none)
  else
    match stk.createOffer peer.calls with
    | none => (peer.record .createOffer false, none)
    | some offer =>
      let p1 := peer.record .createOffer true
      let p2 := p1.record (.setLocalDescription offer) (stk.setLocalDescription p1.calls offer)
      (p2, r.onRenegotiationNeeded.map fun cb =>
        { callback := cb, peerID := peer.id, offer := stk.localDescription p2.calls })

/-- The function that `scheduleRenegotiation` gives to `time.AfterFunc`, run when the
timer fires. -/
def SFURoom.renegotiationTimerFired (stk : Stack) (r : SFURoom) (p : SFUPeer) :
    SFUPeer × Option OfferSent :=
  match r.onRenegotiationNeeded with
  | some _ => r.createAndSendOffer stk p
  | none => (p, none)

/-- The timers of the list whose time has come by `now` fire, one after the other: the
timer is armed no longer and its function runs.  The result is the peer and the offers
sent. -/
def fireDue (stk : Stack) (r : SFURoom) (now : Nat) :
    List (Nat × Nat) → SFUPeer → SFUPeer × List OfferSent
  | [], p => (p, [])
  | (k, fireAt) :: rest, p =>
    if fireAt ≤ now then
      ((fireDue stk r now rest
          (r.renegotiationTimerFired stk { p with armedTimers := mapDelete p.armedTimers k }).1).1,
       (r.renegotiationTimerFired stk { p with armedTimers := mapDelete p.armedTimers k }).2.toList ++
         (fireDue stk r now rest
          (r.renegotiationTimerFired stk { p with armedTimers := mapDelete p.armedTimers k }).1).2)
    else fireDue stk r now rest p

/-- The passing of time up to `now`: every armed timer of the peer whose time has come
fires, in the order in which the timers were made.  The result is the peer and the offers
sent. -/
def SFUPeer.elapse (stk : Stack) (r : SFURoom) (now : Nat) (p : SFUPeer) :
    SFUPeer × List OfferSent :=
  fireDue stk r now p.armedTimers p

/-- Every armed timer of the peer is the one that the pointer `renegotiationTimer` points
to. -/
def SFUPeer.TimersWF (p : SFUPeer) : Prop :=
  ∀ k d, (k, d) ∈ p.armedTimers → p.renegotiationTimer = some k

/-- The goroutine that the `OnICEConnectionStateChange` handler of `AddPeer` starts when the
state becomes connected or completed, from the end of its sleep of 500 ms, on the peer it
has looked up: when the remote description of the peer is set and some forward of the room
is not in the received-set of the peer, `createAndSendOffer` is called. -/
def SFURoom.iceConnectedPeer (stk : Stack) (r : SFURoom) (peer : SFUPeer) :
    SFUPeer × Option OfferSent :=
  if !peer.remoteDescriptionSet then (peer, none)
  else if r.forwardedTracks.any fun tf => !(mapGet peer.forwardedTracks tf.1).getD false then
    r.createAndSendOffer stk peer
  else (peer, none)

/-- The goroutine of the `OnICEConnectionStateChange` handler, on the room: the peer is
looked up under its id; nothing is done when it is not in the table. -/
def SFURoom.iceConnected (stk : String → Stack) (r : SFURoom) (peerID : String) :
    SFURoom × Option OfferSent :=
  match mapGet r.peers peerID with
  | none => (r, none)
  | some peer =>
    (r.putPeer peerID (r.iceConnectedPeer (stk peerID) peer).1,
     (r.iceConnectedPeer (stk peerID) peer).2)

/-- The loop `for peerID, peer := range r.peers` of `BroadcastTrack`: the peers afterwards
and the sender map, from the sender map so far. -/
def broadcastToPeers (stk : String → Stack) (now : Nat) (senderID trackID : String) :
    List (String × SFUPeer) → List (String × (String × String)) →
      List (String × SFUPeer) × List (String × (String × String))
  | [], senders => ([], senders)
  | (peerID, peer) :: rest, senders =>
    if peerID = senderID then
      ((peerID, peer) :: (broadcastToPeers stk now senderID trackID rest senders).1,
       (broadcastToPeers stk now senderID trackID rest senders).2)
    else
      match addTrackToPeer (stk peerID) now peer trackID with
      | (p1, .ok (some sender)) =>
        ((peerID, p1) ::
            (broadcastToPeers stk now senderID trackID rest (mapSet senders peerID sender)).1,
         (broadcastToPeers stk now senderID trackID rest (mapSet senders peerID sender)).2)
      | (p1, _) =>
        ((peerID, p1) :: (broadcastToPeers stk now senderID trackID rest senders).1,
         (broadcastToPeers stk now senderID trackID rest senders).2)

/-- The method `SFURoom.BroadcastTrack`, up to the start of the RTP loop; `localTrackOk`
tells whether `NewTrackLocalStaticRTP` succeeds.  The end of the RTP loop is the call
`cleanupTrack`. -/
def SFURoom.BroadcastTrack (stk : String → Stack) (now : Nat) (localTrackOk : Bool)
    (r : SFURoom) (trackID senderID : String) : SFURoom :=
  match mapGet r.forwardedTracks trackID with
  | some _ => r
  | none =>
    if localTrackOk then
      { r with
        peers := (broadcastToPeers stk now senderID trackID r.peers []).1
        forwardedTracks := mapSet r.forwardedTracks trackID
          { stopChanClosed := false, senderID := senderID,
            senders := (broadcastToPeers stk now senderID trackID r.peers []).2 } }
    else r

/-- The loop `for peerID, sender := range forward.senders` of `cleanupTrack`. -/
def cleanupSenders (stk : String → Stack) (trackID : String) :
    List (String × (String × String)) → List (String × SFUPeer) → List (String × SFUPeer)
  | [], peers => peers
  | (peerID, _) :: rest, peers =>
    match mapGet peers peerID with
    | some peer =>
      cleanupSenders stk trackID rest
        (mapSet peers peerID
          { peer.record (.removeTrack trackID) ((stk peerID).removeTrack peer.calls trackID) with
            forwardedTracks := mapDelete peer.forwardedTracks trackID })
    | none => cleanupSenders stk trackID rest peers

/-- The method `SFURoom.cleanupTrack`. -/
def SFURoom.cleanupTrack (stk : String → Stack) (r : SFURoom) (trackID : String) : SFURoom :=
  match mapGet r.forwardedTracks trackID with
  | none => r
  | some forward =>
    { r with
      peers := cleanupSenders stk trackID forward.senders r.peers
      forwardedTracks := mapDelete r.forwardedTracks trackID }

/-- A call on an SFU room. -/
inductive SFUCall
  | addPeer (peerID : String) (pcOk : Bool)
  | removePeer (peerID : String)
  | broadcastTrack (trackID senderID : String) (localTrackOk : Bool)
  | handleSignal (peerID : String) (msg : SignalMessage)
  | cleanupTrack (trackID : String)
  | iceConnected (peerID : String)
deriving DecidableEq, Repr

/-- The SFU room after a call. -/
def SFURoom.step (stk : String → Stack) (js : Json) (now : Nat) (r : SFURoom) : SFUCall → SFURoom
  | .addPeer peerID pcOk => (r.AddPeer pcOk peerID).1
  | .removePeer peerID => r.RemovePeer peerID
  | .broadcastTrack trackID senderID localTrackOk =>
    r.BroadcastTrack stk now localTrackOk trackID senderID
  | .handleSignal peerID msg => (r.HandleSignalMessage stk js now peerID msg).1
  | .cleanupTrack trackID => r.cleanupTrack stk trackID
  | .iceConnected peerID => (r.iceConnected stk peerID).1

/-- The SFU room after a sequence of calls. -/
def SFURoom.run (stk : String → Stack) (js : Json) (now : Nat) (r : SFURoom) :
    List SFUCall → SFURoom
  | [] => r
  | c :: cs => SFURoom.run stk js now (r.step stk js now c) cs

/-- The peers of a room that break the claim on the sender maps: a forward of the table
and a current peer other than its origin that is no key of its sender map although its
remote description is set. -/
def unattachedPeers (r : SFURoom) : List (String × String) :=
  r.forwardedTracks.flatMap fun tf =>
    (r.peers.filter fun qp =>
      decide (qp.1 ≠ tf.2.senderID) && (mapGet tf.2.senders qp.1).isNone &&
        qp.2.remoteDescriptionSet).map fun qp => (tf.1, qp.1)

/-- The calls of a late join: `alice` joins, negotiates and publishes `audio-1`, then `bob`
joins and sends its first offer. -/
def lateJoinCalls : List SFUCall :=
  [.addPeer "alice" true, .handleSignal "alice" demoOffer,
   .broadcastTrack "audio-1" "alice" true, .addPeer "bob" true,
   .handleSignal "bob" demoOffer]

/-- The `RemoveTrack` calls of a log. -/
def removedTracks : List StackEvent → List String
  | [] => []
  | ⟨.removeTrack t, _⟩ :: es => t :: removedTracks es
  | _ :: es => removedTracks es

/-- The struct `Manager` (without the lock). -/
structure Manager where
  rooms : List (String × RoomRef)
deriving DecidableEq, Repr

/-- The function `NewManager`. -/
def NewManager : Manager := { rooms := [] }

/-- The method `Manager.CreateRoom`. -/
def Manager.CreateRoom (mgr : Manager) (s : State) (masterID name : String) (limits : Int)
    (id sfuID : String) : Manager × State × RoomRef :=
  ({ rooms := mapSet mgr.rooms id (NewRoom s name masterID limits id sfuID).2 },
   (NewRoom s name masterID limits id sfuID).1,
   (NewRoom s name masterID limits id sfuID).2)

/-- The method `Manager.GetRoom`. -/
def Manager.GetRoom (mgr : Manager) (roomID : String) : Option RoomRef :=
  mapGet mgr.rooms roomID

/-- The method `Manager.DeleteRoom`. -/
def Manager.DeleteRoom (mgr : Manager) (roomID : String) : Manager :=
  { rooms := mapDelete mgr.rooms roomID }

/-- The struct `CreateRoomReq`. -/
structure CreateRoomReq where
  Name : String
  Limits : Int
deriving DecidableEq, Repr

/-- The struct `CreateRoomResp`. -/
structure CreateRoomResp where
  RoomID : String
  MasterID : String
deriving DecidableEq, Repr

/-- The request that `Router.CreateRoom` works with: `bound` is what `ShouldBindJSON` has
made of the body, `none` when it returned an error. -/
def createRoomRequest (bound : Option CreateRoomReq) : CreateRoomReq :=
  match bound with
  | some req => req
  | none => { Name := "默认房间", Limits := 10 }

/-- The method `Router.CreateRoom`; `masterID`, `id` and `sfuID` are the
`uuid.NewString()` values. -/
def Router.CreateRoom (mgr : Manager) (s : State) (bound : Option CreateRoomReq)
    (masterID id sfuID : String) : Manager × State × CreateRoomResp :=
  ((mgr.CreateRoom s masterID (createRoomRequest bound).Name (createRoomRequest bound).Limits
      id sfuID).1,
   (mgr.CreateRoom s masterID (createRoomRequest bound).Name (createRoomRequest bound).Limits
      id sfuID).2.1,
   { RoomID := id, MasterID := masterID })

/-! ## The JSON object of a `SignalMessage` (`model/message.go`) -/

/-- The value of a member of a JSON object: a string, a raw payload or a number.  The text
that `encoding/json` writes for a value is not modelled. -/
inductive WireValue
  | str (s : String)
  | raw (b : Bytes)
  | num (n : Int)
deriving DecidableEq, Repr

/-- The json tags of the fields of the struct `SignalMessage`, in the order of the
declaration: the name of the member and whether the tag has `omitempty`. -/
def signalMessageTags : List (String × Bool) :=
  [("type", false), ("data", true), ("from_user", true), ("from_name", true),
   ("to_user", true), ("room_id", true), ("time", true)]

/-- The values of the fields of a `SignalMessage`, in the order of the declaration. -/
def SignalMessage.fields (m : SignalMessage) : List WireValue :=
  [.str m.Typ, .raw m.Data, .str m.FromUser, .str m.FromName, .str m.ToUser, .str m.RoomID,
   .num m.Time]

/-- Whether `omitempty` leaves the value out: a string or a payload of length 0, the
number 0. -/
def WireValue.isEmpty : WireValue → Bool
  | .str s => decide (s = "")
  | .raw b => decide (b = [])
  | .num n => decide (n = 0)

/-- What `json.Marshal` writes for a value, `none` for an error.  A string of Unicode text
and a number are read back as they are.  What is written for a `json.RawMessage` is
decided by `encoding/json`, outside the repository, and given by `compact`: the payload in
compact form, or an error for a payload that is no valid JSON. -/
def writeValue (compact : Bytes → Option Bytes) : WireValue → Option WireValue
  | .raw b => (compact b).map WireValue.raw
  | .str s => some (.str s)
  | .num n => some (.num n)

/-- The members that `json.Marshal` writes for the fields of a struct, by their tags: a
field with `omitempty` whose value is empty is left out. -/
def marshalFields (compact : Bytes → Option Bytes) :
    List ((String × Bool) × WireValue) → Option (List (String × WireValue))
  | [] => some []
  | ((name, omitempty), v) :: rest =>
    if omitempty && v.isEmpty then marshalFields compact rest
    else
      match writeValue compact v, marshalFields compact rest with
      | some w, some ws => some ((name, w) :: ws)
      | _, _ => none

/-- The members of the JSON object that `json.Marshal` makes of a `SignalMessage`, `none`
when it returns an error. -/
def SignalMessage.toWire (compact : Bytes → Option Bytes) (m : SignalMessage) :
    Option (List (String × WireValue)) :=
  marshalFields compact (signalMessageTags.zip m.fields)

/-- The string member `key` of a JSON object, the empty string when it is absent. -/
def wireString (w : List (String × WireValue)) (key : String) : String :=
  match mapGet w key with
  | some (.str s) => s
  | _ => ""

/-- The raw member `key` of a JSON object, empty when it is absent. -/
def wireRaw (w : List (String × WireValue)) (key : String) : Bytes :=
  match mapGet w key with
  | some (.raw b) => b
  | _ => []

/-- The number member `key` of a JSON object, 0 when it is absent. -/
def wireNumber (w : List (String × WireValue)) (key : String) : Int :=
  match mapGet w key with
  | some (.num n) => n
  | _ => 0

/-- The `SignalMessage` that `json.Unmarshal` makes of a JSON object, into a zero value:
a member that is absent leaves its field empty. -/
def SignalMessage.ofWire (w : List (String × WireValue)) : SignalMessage :=
  { Typ := wireString w "type", Data := wireRaw w "data",
    FromUser := wireString w "from_user", FromName := wireString w "from_name",
    ToUser := wireString w "to_user", RoomID := wireString w "room_id",
    Time := wireNumber w "time" }

/-- The zero value of `SignalMessage`: every field empty. -/
def blankMessage : SignalMessage :=
  { Typ := "", Data := [], FromUser := "", FromName := "", ToUser := "", RoomID := "",
    Time := 0 }

/-- A stand-in for the compaction of `encoding/json`: a payload that starts with `{` is
written without its spaces, any other payload is refused. -/
def demoCompact (b : Bytes) : Option Bytes :=
  if b.head? = some 123 then some (b.filter fun c => c ≠ 32) else none

/-- A message whose payload is the text `{"a": 1}`, with a space in it. -/
def spacedMessage : SignalMessage :=
  { Typ := "chat", Data := [123, 34, 97, 34, 58, 32, 49, 125], FromUser := "u-bob",
    FromName := "", ToUser := "", RoomID := "", Time := 7 }

/-! ## Members that join once -/

/-- Whether the call is no `Join` of a member whose send queue is closed. -/
def Call.joinsOpen (s : State) : Call → Bool
  | .join _ m =>
    match s.members[m]? with
    | some mem => !mem.send.closed
    | none => true
  | _ => true

/-- The heap after a sequence of calls, each of which returns, in which `Join` is never
called on a member whose send queue is closed. -/
def execOpen (s : State) : List Call → Option State
  | [] => some s
  | c :: cs => if c.joinsOpen s then (step s c).bind fun s1 => execOpen s1 cs else none

/-- The states reached from the empty heap by calls in which no member joins after its
send queue was closed. -/
def ReachableOpen (s : State) : Prop := ∃ cs, execOpen State.init cs = some s

/-- A member whose send queue is closed has no room. -/
def ClosedOutside (s : State) : Prop :=
  ∀ (m : MemberRef) (mem : Member),
    s.members[m]? = some mem → mem.send.closed = true → mem.room = none

/-! ## Go maps: lemmas -/

section MapLemmas

variable {κ β : Type} [DecidableEq κ]

theorem mapGet_mapDelete (t : List (κ × β)) (i j : κ) :
    mapGet (mapDelete t i) j = if i = j then none else mapGet t j := by
  induction t with
  | nil => simp [mapDelete, mapGet]
  | cons e rest ih =>
    obtain ⟨k, v⟩ := e
    by_cases hki : k = i
    · subst hki
      by_cases hkj : k = j
      · subst hkj
        simpa [mapDelete] using ih
      · simp [mapDelete, mapGet, ih, hkj]
    · by_cases hkj : k = j
      · subst hkj
        have : ¬ i = k := fun h => hki h.symm
        simp [mapDelete, mapGet, hki, this]
      · simp [mapDelete, mapGet, hki, hkj, ih]

theorem mapGet_mapSet (t : List (κ × β)) (i j : κ) (v : β) :
    mapGet (mapSet t i v) j = if i = j then some v else mapGet t j := by
  by_cases h : i = j
  · simp [mapSet, mapGet, h]
  · simp [mapSet, mapGet, h, mapGet_mapDelete]

theorem mapGet_eq_none_iff {t : List (κ × β)} {i : κ} :
    mapGet t i = none ↔ i ∉ t.map Prod.fst := by
  induction t with
  | nil => simp [mapGet]
  | cons e rest ih =>
    obtain ⟨k, w⟩ := e
    by_cases hk : k = i
    · subst hk
      simp [mapGet]
    · have : ¬ i = k := fun h => hk h.symm
      simp [mapGet, hk, ih, this]

theorem mapGet_of_mem {t : List (κ × β)} (hnd : (t.map Prod.fst).Nodup) {i : κ} {v : β}
    (h : (i, v) ∈ t) : mapGet t i = some v := by
  induction t with
  | nil => simp at h
  | cons e rest ih =>
    obtain ⟨k, w⟩ := e
    simp only [List.map_cons, List.nodup_cons] at hnd
    rcases List.mem_cons.mp h with heq | hmem
    · cases heq
      simp [mapGet]
    · have hne : k ≠ i := by
        intro hk
        subst hk
        exact hnd.1 (List.mem_map.mpr ⟨(k, v), hmem, rfl⟩)
      simp [mapGet, hne, ih hnd.2 hmem]

theorem mem_mapDelete {t : List (κ × β)} {i : κ} {e : κ × β} :
    e ∈ mapDelete t i ↔ e ∈ t ∧ e.1 ≠ i := by
  induction t with
  | nil => simp [mapDelete]
  | cons x rest ih =>
    obtain ⟨k, w⟩ := x
    by_cases hk : k = i
    · subst hk
      simp only [mapDelete, if_true, ih, List.mem_cons]
      constructor
      · rintro ⟨h1, h2⟩
        exact ⟨Or.inr h1, h2⟩
      · rintro ⟨h1 | h1, h2⟩
        · subst h1
          exact absurd rfl h2
        · exact ⟨h1, h2⟩
    · simp only [mapDelete, hk, if_false, List.mem_cons, ih]
      constructor
      · rintro (h1 | ⟨h1, h2⟩)
        · subst h1
          exact ⟨Or.inl rfl, hk⟩
        · exact ⟨Or.inr h1, h2⟩
      · rintro ⟨h1 | h1, h2⟩
        · exact Or.inl h1
        · exact Or.inr ⟨h1, h2⟩

theorem mapDelete_keys_sublist (t : List (κ × β)) (i : κ) :
    ((mapDelete t i).map Prod.fst).Sublist (t.map Prod.fst) := by
  induction t with
  | nil => simp [mapDelete]
  | cons x rest ih =>
    obtain ⟨k, w⟩ := x
    by_cases hk : k = i
    · simp only [mapDelete, hk, if_true, List.map_cons]
      exact List.Sublist.cons _ (by simpa [hk] using ih)
    · simp only [mapDelete, hk, if_false, List.map_cons]
      exact List.Sublist.cons₂ _ ih

theorem nodup_mapDelete {t : List (κ × β)} (hnd : (t.map Prod.fst).Nodup) (i : κ) :
    ((mapDelete t i).map Prod.fst).Nodup :=
  List.Nodup.sublist (mapDelete_keys_sublist t i) hnd

theorem mapDelete_of_none {t : List (κ × β)} {i : κ} (h : mapGet t i = none) :
    mapDelete t i = t := by
  induction t with
  | nil => simp [mapDelete]
  | cons x rest ih =>
    obtain ⟨k, w⟩ := x
    by_cases hk : k = i
    · simp [mapGet, hk] at h
    · simp only [mapGet, hk, if_false] at h
      simp [mapDelete, hk, ih h]

theorem nodup_mapSet {t : List (κ × β)} (hnd : (t.map Prod.fst).Nodup) (i : κ) (v : β) :
    ((mapSet t i v).map Prod.fst).Nodup := by
  simp only [mapSet, List.map_cons, List.nodup_cons]
  refine ⟨?_, nodup_mapDelete hnd i⟩
  intro hmem
  obtain ⟨e, he, hfst⟩ := List.mem_map.mp hmem
  exact (mem_mapDelete.mp he).2 hfst

theorem length_mapDelete_of_some {t : List (κ × β)} (hnd : (t.map Prod.fst).Nodup) {i : κ}
    {v : β} (h : mapGet t i = some v) : (mapDelete t i).length + 1 = t.length := by
  induction t with
  | nil => simp [mapGet] at h
  | cons x rest ih =>
    obtain ⟨k, w⟩ := x
    simp only [List.map_cons, List.nodup_cons] at hnd
    by_cases hk : k = i
    · subst hk
      have hnone : mapGet rest k = none := mapGet_eq_none_iff.mpr hnd.1
      simp [mapDelete, mapDelete_of_none hnone]
    · simp only [mapGet, hk, if_false] at h
      simp [mapDelete, hk, ih hnd.2 h]

end MapLemmas


/-! ## Lists as heaps -/

theorem getElem?_set_of_some {α : Type} {l : List α} {i : Nat} {a : α} (h : l[i]? = some a)
    (b : α) (j : Nat) : (l.set i b)[j]? = if j = i then some b else l[j]? := by
  have hlt : i < l.length := by
    obtain ⟨hlt, _⟩ := List.getElem?_eq_some.mp h
    exact hlt
  rw [List.getElem?_set]
  by_cases hij : i = j
  · subst hij
    simp [hlt]
  · have : ¬ j = i := fun h => hij h.symm
    simp [hij, this]

theorem getElem?_append_one {α : Type} (l : List α) (a : α) (j : Nat) :
    (l ++ [a])[j]? = if j = l.length then some a else l[j]? := by
  rw [List.getElem?_append]
  by_cases hlt : j < l.length
  · have : ¬ j = l.length := by omega
    simp [hlt, this]
  · by_cases heq : j = l.length
    · subst heq
      simp
    · have h1 : l.length ≤ j := by omega
      have h2 : 1 ≤ j - l.length := by omega
      simp [hlt, heq, List.getElem?_eq_none h1, (List.getElem?_eq_none (by simpa using h2) : [a][j - l.length]? = none)]

theorem lt_length_of_getElem? {α : Type} {l : List α} {i : Nat} {a : α} (h : l[i]? = some a) :
    i < l.length := by
  obtain ⟨hlt, _⟩ := List.getElem?_eq_some.mp h
  exact hlt

/-! ## The scan of `Join` -/

theorem joinScan_some {tbl : List (Int × MemberRef)} {limits : Int} {fuel : Nat} {i0 i : Int}
    (h : joinScan tbl limits fuel i0 = some i) :
    i0 ≤ i ∧ i ≤ limits ∧ mapGet tbl i = none ∧
      ∀ j, i0 ≤ j → j < i → mapGet tbl j ≠ none := by
  induction fuel generalizing i0 with
  | zero => simp [joinScan] at h
  | succ n ih =>
    unfold joinScan at h
    by_cases hle : i0 ≤ limits
    · simp only [hle, if_true] at h
      cases hg : mapGet tbl i0 with
      | none =>
        simp only [hg] at h
        cases h
        exact ⟨le_refl _, hle, hg, fun j h1 h2 => absurd h2 (not_lt.mpr h1)⟩
      | some v =>
        simp only [hg] at h
        obtain ⟨h1, h2, h3, h4⟩ := ih h
        refine ⟨by omega, h2, h3, ?_⟩
        intro j hj1 hj2
        by_cases hj : j = i0
        · subst hj
          simp [hg]
        · exact h4 j (by omega) hj2
    · simp [hle] at h

theorem joinScan_none {tbl : List (Int × MemberRef)} {limits : Int} {fuel : Nat} {i0 : Int}
    (h : joinScan tbl limits fuel i0 = none) (hfuel : limits < i0 + fuel) :
    ∀ j, i0 ≤ j → j ≤ limits → mapGet tbl j ≠ none := by
  induction fuel generalizing i0 with
  | zero =>
    intro j h1 h2
    simp at hfuel
    omega
  | succ n ih =>
    unfold joinScan at h
    by_cases hle : i0 ≤ limits
    · simp only [hle, if_true] at h
      cases hg : mapGet tbl i0 with
      | none => simp [hg] at h
      | some v =>
        simp only [hg] at h
        intro j h1 h2
        by_cases hj : j = i0
        · subst hj
          simp [hg]
        · exact ih h (by push_cast at hfuel; omega) j (by omega) h2
    · intro j h1 h2
      omega

/-! ## Counting slots -/

theorem length_le_of_keys_in_range {tbl : List (Int × MemberRef)} {limits : Int}
    (hnd : (tbl.map Prod.fst).Nodup)
    (hrange : ∀ i m, (i, m) ∈ tbl → 1 ≤ i ∧ i ≤ limits) :
    (tbl.length : Int) ≤ max limits 0 := by
  have hsub : (tbl.map Prod.fst).toFinset ⊆ Finset.Icc 1 limits := by
    intro k hk
    rw [List.mem_toFinset] at hk
    obtain ⟨e, he, hfst⟩ := List.mem_map.mp hk
    obtain ⟨i, m⟩ := e
    simp only at hfst
    subst hfst
    exact Finset.mem_Icc.mpr (hrange i m he)
  have hcard := Finset.card_le_card hsub
  rw [List.toFinset_card_of_nodup hnd, Int.card_Icc, List.length_map] at hcard
  omega

theorem le_length_of_range_occupied {tbl : List (Int × MemberRef)} {limits : Int}
    (hocc : ∀ j, 1 ≤ j → j ≤ limits → mapGet tbl j ≠ none) :
    limits ≤ (tbl.length : Int) := by
  have hsub : Finset.Icc 1 limits ⊆ (tbl.map Prod.fst).toFinset := by
    intro k hk
    obtain ⟨h1, h2⟩ := Finset.mem_Icc.mp hk
    rw [List.mem_toFinset]
    by_contra hnot
    exact hocc k h1 h2 (mapGet_eq_none_iff.mpr hnot)
  have hcard := Finset.card_le_card hsub
  have hlen : (tbl.map Prod.fst).toFinset.card ≤ tbl.length := by
    simpa using List.toFinset_card_le (tbl.map Prod.fst)
  rw [Int.card_Icc] at hcard
  omega


/-! ## `Join` -/

theorem Join_scan_finds {room : Room}
    (hlt : (room.member.length : Int) < room.limits) :
    ∃ i, joinScan room.member room.limits room.limits.toNat 1 = some i := by
  cases hscan : joinScan room.member room.limits room.limits.toNat 1 with
  | some i => exact ⟨i, rfl⟩
  | none =>
    exfalso
    have hocc := joinScan_none hscan (by omega)
    have := le_length_of_range_occupied hocc
    omega

theorem Join_accept {s : State} {r : RoomRef} {m : MemberRef} {room : Room} {mem : Member}
    {i : Int} (hr : s.rooms[r]? = some room) (hm : s.members[m]? = some mem)
    (hidx : ¬ 0 < mem.roomIndex) (hlt : (room.member.length : Int) < room.limits)
    (hscan : joinScan room.member room.limits room.limits.toNat 1 = some i) :
    Join s r m =
      some ({ rooms := s.rooms.set r { room with member := mapSet room.member i m },
              members := s.members.set m { mem with room := some r, roomIndex := i } },
            true) := by
  have hlt2 : ¬ room.limits ≤ (room.member.length : Int) := not_le.mpr hlt
  simp only [Join, hr, hm, hidx, hlt2, if_false, hscan]

theorem Join_reject {s : State} {r : RoomRef} {m : MemberRef} {room : Room} {mem : Member}
    (hr : s.rooms[r]? = some room) (hm : s.members[m]? = some mem)
    (h : 0 < mem.roomIndex ∨ room.limits ≤ (room.member.length : Int)) :
    Join s r m = some (s, false) := by
  by_cases hidx : 0 < mem.roomIndex
  · simp only [Join, hr, hm, hidx, if_true]
  · have hfull : room.limits ≤ (room.member.length : Int) := by
      rcases h with h | h
      · exact absurd h hidx
      · exact h
    simp only [Join, hr, hm, hidx, if_false, hfull, if_true]

/-- A member without a slot is in no table. -/
theorem not_mem_table_of_no_slot {s : State} (hwf : WF s) {m : MemberRef} {mem : Member}
    (hm : s.members[m]? = some mem) (hidx : ¬ 0 < mem.roomIndex) {r0 : RoomRef} {room0 : Room}
    (hr0 : s.rooms[r0]? = some room0) (j : Int) : (j, m) ∉ room0.member := by
  intro hmem
  obtain ⟨h1, _, mem0, hm0, _, hj⟩ := (hwf.1 r0 room0 hr0).2 j m hmem
  rw [hm] at hm0
  cases hm0
  omega

theorem WF_Join_accept {s : State} (hwf : WF s) {r : RoomRef} {m : MemberRef} {room : Room}
    {mem : Member} {i : Int} (hr : s.rooms[r]? = some room) (hm : s.members[m]? = some mem)
    (hidx : ¬ 0 < mem.roomIndex) (hi1 : 1 ≤ i) (hi2 : i ≤ room.limits)
    (hfree : mapGet room.member i = none) :
    WF { rooms := s.rooms.set r { room with member := mapSet room.member i m },
         members := s.members.set m { mem with room := some r, roomIndex := i } } := by
  have hnot := fun (r0 : RoomRef) (room0 : Room) (h : s.rooms[r0]? = some room0) (j : Int) =>
    not_mem_table_of_no_slot hwf hm hidx h j
  have hdel : mapDelete room.member i = room.member := mapDelete_of_none hfree
  constructor
  · intro r0 room0 hr0
    simp only [getElem?_set_of_some hr] at hr0
    by_cases hr0r : r0 = r
    · subst hr0r
      simp only [if_true, Option.some.injEq] at hr0
      subst hr0
      refine ⟨nodup_mapSet (hwf.1 r0 room hr).1 i m, ?_⟩
      intro j m0 hmem
      simp only [mapSet, hdel, List.mem_cons, Prod.mk.injEq] at hmem
      rcases hmem with ⟨hj, hm0⟩ | hmem
      · rw [hj, hm0]
        refine ⟨hi1, hi2, { mem with room := some r0, roomIndex := i }, ?_, rfl, rfl⟩
        simp [getElem?_set_of_some hm]
      · have hne : m0 ≠ m := by
          intro h
          subst h
          exact hnot r0 room hr j hmem
        obtain ⟨h1, h2, mem0, hm0, h3, h4⟩ := (hwf.1 r0 room hr).2 j m0 hmem
        exact ⟨h1, h2, mem0, by simp [getElem?_set_of_some hm, hne, hm0], h3, h4⟩
    · simp only [hr0r, if_false] at hr0
      refine ⟨(hwf.1 r0 room0 hr0).1, ?_⟩
      intro j m0 hmem
      have hne : m0 ≠ m := by
        intro h
        subst h
        exact hnot r0 room0 hr0 j hmem
      obtain ⟨h1, h2, mem0, hm0, h3, h4⟩ := (hwf.1 r0 room0 hr0).2 j m0 hmem
      exact ⟨h1, h2, mem0, by simp [getElem?_set_of_some hm, hne, hm0], h3, h4⟩
  · intro m0 mem0 hm0
    simp only [getElem?_set_of_some hm] at hm0
    by_cases hm0m : m0 = m
    · subst hm0m
      simp only [if_true, Option.some.injEq] at hm0
      subst hm0
      refine ⟨(hwf.2 m0 mem hm).1,
        Or.inr ⟨r, { room with member := mapSet room.member i m0 }, rfl, ?_, ?_⟩⟩
      · simp only [getElem?_set_of_some hr, if_true]
      · simp [mapSet]
    · simp only [hm0m, if_false] at hm0
      obtain ⟨hcap, hcase⟩ := hwf.2 m0 mem0 hm0
      refine ⟨hcap, ?_⟩
      rcases hcase with hnone | ⟨r0, room0, h1, h2, h3⟩
      · exact Or.inl hnone
      · by_cases hr0r : r0 = r
        · subst hr0r
          rw [hr] at h2
          cases h2
          refine Or.inr ⟨r0, { room with member := mapSet room.member i m }, h1, ?_, ?_⟩
          · simp only [getElem?_set_of_some hr, if_true]
          · simp only [mapSet, hdel]
            exact List.mem_cons_of_mem _ h3
        · exact Or.inr ⟨r0, room0, h1, by simp [getElem?_set_of_some hr, hr0r, h2], h3⟩

theorem WF_Join {s s' : State} {r : RoomRef} {m : MemberRef} {b : Bool} (hwf : WF s)
    (h : Join s r m = some (s', b)) : WF s' := by
  unfold Join at h
  cases hr : s.rooms[r]? with
  | none => simp [hr] at h
  | some room =>
    cases hm : s.members[m]? with
    | none => simp [hr, hm] at h
    | some mem =>
      simp only [hr, hm] at h
      by_cases hidx : 0 < mem.roomIndex
      · simp only [hidx, if_true, Option.some.injEq, Prod.mk.injEq] at h
        rw [← h.1]
        exact hwf
      · simp only [hidx, if_false] at h
        by_cases hfull : room.limits ≤ (room.member.length : Int)
        · simp only [hfull, if_true, Option.some.injEq, Prod.mk.injEq] at h
          rw [← h.1]
          exact hwf
        · simp only [hfull, if_false] at h
          cases hscan : joinScan room.member room.limits room.limits.toNat 1 with
          | none =>
            simp only [hscan, Option.some.injEq, Prod.mk.injEq] at h
            rw [← h.1]
            exact hwf
          | some i =>
            simp only [hscan, Option.some.injEq, Prod.mk.injEq] at h
            obtain ⟨h1, h2, h3, _⟩ := joinScan_some hscan
            rw [← h.1]
            exact WF_Join_accept hwf hr hm hidx h1 h2 h3


/-! ## `Leave` -/

theorem Chan.close_eq_some {c ch : Chan} (h : c.close = some ch) :
    c.closed = false ∧ ch = { c with closed := true } := by
  unfold Chan.close at h
  by_cases hc : c.closed = true
  · simp [hc] at h
  · simp only [hc] at h
    simp only [Bool.false_eq_true, if_false, Option.some.injEq] at h
    exact ⟨by simpa using hc, h.symm⟩

theorem Chan.close_of_open {c : Chan} (h : c.closed = false) :
    c.close = some { c with closed := true } := by
  simp [Chan.close, h]

theorem dissolveAll_spec {tbl : List (Int × MemberRef)} {ms ms' : List Member}
    (h : dissolveAll ms tbl = some ms') (m0 : MemberRef) :
    (m0 ∈ tbl.map Prod.snd →
        ∃ mem0, ms[m0]? = some mem0 ∧ mem0.send.closed = false ∧
          ms'[m0]? = some mem0.dissolved) ∧
      (m0 ∉ tbl.map Prod.snd → ms'[m0]? = ms[m0]?) := by
  induction tbl generalizing ms with
  | nil =>
    simp only [dissolveAll, Option.some.injEq] at h
    subst h
    simp
  | cons e rest ih =>
    obtain ⟨k, m1⟩ := e
    unfold dissolveAll at h
    cases hm1 : ms[m1]? with
    | none => simp [hm1] at h
    | some mem1 =>
      simp only [hm1] at h
      cases hcl : mem1.send.close with
      | none => simp [hcl] at h
      | some ch =>
        simp only [hcl] at h
        obtain ⟨hopen, hch⟩ := Chan.close_eq_some hcl
        subst hch
        have hd : dissolveAll (ms.set m1 mem1.dissolved) rest = some ms' := h
        obtain ⟨ih1, ih2⟩ := ih hd
        have hset' : ∀ j, (ms.set m1 mem1.dissolved)[j]? =
            if j = m1 then some mem1.dissolved else ms[j]? :=
          fun j => getElem?_set_of_some hm1 _ j
        by_cases hrest : m0 ∈ rest.map Prod.snd
        · obtain ⟨mem0, hm0, hop0, hres⟩ := ih1 hrest
          have hne : m0 ≠ m1 := by
            intro heq
            subst heq
            rw [hset', if_pos rfl] at hm0
            cases hm0
            simp [Member.dissolved] at hop0
          rw [hset', if_neg hne] at hm0
          exact ⟨fun _ => ⟨mem0, hm0, hop0, hres⟩,
            fun hnot => absurd (List.mem_cons_of_mem _ hrest) (by simpa using hnot)⟩
        · have hres := ih2 hrest
          constructor
          · intro hmem
            have heq : m0 = m1 := by
              simp only [List.map_cons, List.mem_cons] at hmem
              rcases hmem with h1 | h1
              · exact h1
              · exact absurd h1 hrest
            subst heq
            rw [hset', if_pos rfl] at hres
            exact ⟨mem1, hm1, hopen, hres⟩
          · intro hnot
            have hne : m0 ≠ m1 := by
              intro heq
              apply hnot
              simp [heq]
            rw [hset', if_neg hne] at hres
            exact hres

theorem dissolveAll_succeeds {tbl : List (Int × MemberRef)} {ms : List Member}
    (hnd : (tbl.map Prod.snd).Nodup)
    (hopen : ∀ m0 ∈ tbl.map Prod.snd, ∃ mem0, ms[m0]? = some mem0 ∧ mem0.send.closed = false) :
    ∃ ms', dissolveAll ms tbl = some ms' := by
  induction tbl generalizing ms with
  | nil => exact ⟨ms, rfl⟩
  | cons e rest ih =>
    obtain ⟨k, m1⟩ := e
    simp only [List.map_cons, List.nodup_cons] at hnd
    obtain ⟨mem1, hm1, hop1⟩ := hopen m1 (by simp)
    unfold dissolveAll
    simp only [hm1, Chan.close_of_open hop1]
    apply ih hnd.2
    intro m0 hm0
    have hne : m0 ≠ m1 := by
      intro heq
      subst heq
      exact hnd.1 hm0
    obtain ⟨mem0, h1, h2⟩ := hopen m0 (by simp [hm0])
    exact ⟨mem0, by rw [getElem?_set_of_some hm1, if_neg hne]; exact h1, h2⟩

/-- In a well-formed heap the members of a table are pairwise distinct. -/
theorem refs_nodup {s : State} {r : RoomRef} {room : Room} (hwf : RoomWF s r room) :
    (room.member.map Prod.snd).Nodup := by
  apply List.Nodup.map_on _ (List.Nodup.of_map Prod.fst hwf.1)
  rintro ⟨i, m⟩ hi ⟨j, m'⟩ hj heq
  simp only at heq
  subst heq
  obtain ⟨_, _, mem1, hm1, _, h1⟩ := hwf.2 i m hi
  obtain ⟨_, _, mem2, hm2, _, h2⟩ := hwf.2 j m hj
  rw [hm1] at hm2
  cases hm2
  rw [← h1, ← h2]

/-- A member that points to a room sits in the table of that room at its slot. -/
theorem joined_slot {s : State} (hwf : WF s) {r : RoomRef} {m : MemberRef} {room : Room}
    {mem : Member} (hr : s.rooms[r]? = some room) (hm : s.members[m]? = some mem)
    (hroom : mem.room = some r) :
    (mem.roomIndex, m) ∈ room.member ∧ mapGet room.member mem.roomIndex = some m ∧
      1 ≤ mem.roomIndex ∧ mem.roomIndex ≤ room.limits := by
  obtain ⟨_, hcase⟩ := hwf.2 m mem hm
  rcases hcase with ⟨hnone, _⟩ | ⟨r0, room0, h1, h2, h3⟩
  · rw [hnone] at hroom
    cases hroom
  · rw [hroom] at h1
    cases h1
    rw [hr] at h2
    cases h2
    obtain ⟨h4, h5, _⟩ := (hwf.1 r room hr).2 _ _ h3
    exact ⟨h3, mapGet_of_mem (hwf.1 r room hr).1 h3, h4, h5⟩

theorem WF_Leave_member {s : State} (hwf : WF s) {r : RoomRef} {m : MemberRef} {room : Room}
    {mem : Member} (hr : s.rooms[r]? = some room) (hm : s.members[m]? = some mem)
    (hroom : mem.room = some r) (sfu : SFURoom) (ch : Chan) (hch : ch.cap = 256) :
    WF { rooms := s.rooms.set r { room with member := mapDelete room.member mem.roomIndex,
                                            sfu := sfu },
         members := s.members.set m { mem with send := ch, room := none, roomIndex := -1 } } := by
  obtain ⟨hin, hget, _, _⟩ := joined_slot hwf hr hm hroom
  constructor
  · intro r0 room0 hr0
    simp only [getElem?_set_of_some hr] at hr0
    by_cases hr0r : r0 = r
    · subst hr0r
      simp only [if_true, Option.some.injEq] at hr0
      subst hr0
      refine ⟨nodup_mapDelete (hwf.1 r0 room hr).1 _, ?_⟩
      intro j m0 hmem
      obtain ⟨hmem1, hne⟩ := mem_mapDelete.mp hmem
      obtain ⟨h1, h2, mem0, hm0, h3, h4⟩ := (hwf.1 r0 room hr).2 j m0 hmem1
      have hne2 : m0 ≠ m := by
        intro heq
        subst heq
        rw [hm] at hm0
        cases hm0
        exact hne h4.symm
      exact ⟨h1, h2, mem0, by simp [getElem?_set_of_some hm, hne2, hm0], h3, h4⟩
    · simp only [hr0r, if_false] at hr0
      refine ⟨(hwf.1 r0 room0 hr0).1, ?_⟩
      intro j m0 hmem
      obtain ⟨h1, h2, mem0, hm0, h3, h4⟩ := (hwf.1 r0 room0 hr0).2 j m0 hmem
      have hne2 : m0 ≠ m := by
        intro heq
        subst heq
        rw [hm] at hm0
        cases hm0
        rw [hroom] at h3
        cases h3
        exact hr0r rfl
      exact ⟨h1, h2, mem0, by simp [getElem?_set_of_some hm, hne2, hm0], h3, h4⟩
  · intro m0 mem0 hm0
    simp only [getElem?_set_of_some hm] at hm0
    by_cases hm0m : m0 = m
    · subst hm0m
      simp only [if_true, Option.some.injEq] at hm0
      subst hm0
      exact ⟨hch, Or.inl ⟨rfl, rfl⟩⟩
    · simp only [hm0m, if_false] at hm0
      obtain ⟨hcap, hcase⟩ := hwf.2 m0 mem0 hm0
      refine ⟨hcap, ?_⟩
      rcases hcase with hnone | ⟨r0, room0, h1, h2, h3⟩
      · exact Or.inl hnone
      · by_cases hr0r : r0 = r
        · subst hr0r
          rw [hr] at h2
          cases h2
          refine Or.inr ⟨r0, { room with member := mapDelete room.member mem.roomIndex,
                                         sfu := sfu }, h1, ?_, ?_⟩
          · simp only [getElem?_set_of_some hr, if_true]
          · refine mem_mapDelete.mpr ⟨h3, ?_⟩
            intro heq
            simp only at heq
            rw [heq] at h3
            have := mapGet_of_mem (hwf.1 r0 room hr).1 h3
            rw [hget] at this
            cases this
            exact hm0m rfl
        · exact Or.inr ⟨r0, room0, h1, by simp [getElem?_set_of_some hr, hr0r, h2], h3⟩

theorem WF_Leave_owner {s : State} (hwf : WF s) {r : RoomRef} {room : Room}
    (hr : s.rooms[r]? = some room) {ms : List Member}
    (hd : dissolveAll s.members room.member = some ms) (sfu : SFURoom) :
    WF { rooms := s.rooms.set r { room with member := [], sfu := sfu }, members := ms } := by
  constructor
  · intro r0 room0 hr0
    simp only [getElem?_set_of_some hr] at hr0
    by_cases hr0r : r0 = r
    · subst hr0r
      simp only [if_true, Option.some.injEq] at hr0
      subst hr0
      exact ⟨by simp, by simp⟩
    · simp only [hr0r, if_false] at hr0
      refine ⟨(hwf.1 r0 room0 hr0).1, ?_⟩
      intro j m0 hmem
      obtain ⟨h1, h2, mem0, hm0, h3, h4⟩ := (hwf.1 r0 room0 hr0).2 j m0 hmem
      have hnot : m0 ∉ room.member.map Prod.snd := by
        intro hin
        obtain ⟨e, he, hsnd⟩ := List.mem_map.mp hin
        obtain ⟨j', m'⟩ := e
        simp only at hsnd
        subst hsnd
        obtain ⟨_, _, mem1, hm1, h5, _⟩ := (hwf.1 r room hr).2 j' m' he
        rw [hm0] at hm1
        cases hm1
        rw [h3] at h5
        cases h5
        exact hr0r rfl
      exact ⟨h1, h2, mem0, by simp only; rw [(dissolveAll_spec hd m0).2 hnot]; exact hm0, h3, h4⟩
  · intro m0 mem0 hm0
    simp only at hm0
    by_cases hin : m0 ∈ room.member.map Prod.snd
    · obtain ⟨mem1, hm1, _, hres⟩ := (dissolveAll_spec hd m0).1 hin
      rw [hm0] at hres
      cases hres
      exact ⟨(hwf.2 m0 mem1 hm1).1, Or.inl ⟨rfl, rfl⟩⟩
    · rw [(dissolveAll_spec hd m0).2 hin] at hm0
      obtain ⟨hcap, hcase⟩ := hwf.2 m0 mem0 hm0
      refine ⟨hcap, ?_⟩
      rcases hcase with hnone | ⟨r0, room0, h1, h2, h3⟩
      · exact Or.inl hnone
      · have hr0r : r0 ≠ r := by
          intro heq
          subst heq
          rw [hr] at h2
          cases h2
          exact hin (List.mem_map.mpr ⟨_, h3, rfl⟩)
        exact Or.inr ⟨r0, room0, h1, by simp [getElem?_set_of_some hr, hr0r, h2], h3⟩


theorem Leave_not_joined {s : State} {r : RoomRef} {m : MemberRef} {room : Room} {mem : Member}
    (hr : s.rooms[r]? = some room) (hm : s.members[m]? = some mem)
    (h : mem.roomIndex < 0 ∨ mem.room ≠ some r) : Leave s r m = some (s, false) := by
  simp only [Leave, hr, hm, h, if_true]

theorem Leave_owner {s : State} {r : RoomRef} {m : MemberRef} {room : Room} {mem : Member}
    (hr : s.rooms[r]? = some room) (hm : s.members[m]? = some mem)
    (hidx : ¬ mem.roomIndex < 0) (hroom : mem.room = some r) (hown : mem.index = room.master) :
    Leave s r m =
      (dissolveAll s.members room.member).map fun ms =>
        ({ rooms := s.rooms.set r { room with member := [], sfu := room.sfu.Close },
           members := ms }, true) := by
  have hj : ¬ (mem.roomIndex < 0 ∨ mem.room ≠ some r) := by
    rintro (h | h)
    · exact hidx h
    · exact h hroom
  simp only [Leave, hr, hm, hj, if_false, hown, if_true]
  cases dissolveAll s.members room.member <;> rfl

theorem Leave_member {s : State} {r : RoomRef} {m v : MemberRef} {room : Room} {mem : Member}
    (hr : s.rooms[r]? = some room) (hm : s.members[m]? = some mem)
    (hidx : ¬ mem.roomIndex < 0) (hroom : mem.room = some r) (hown : mem.index ≠ room.master)
    (hslot : mapGet room.member mem.roomIndex = some v) :
    Leave s r m =
      mem.send.close.map fun ch =>
        ({ rooms := s.rooms.set r
              { room with member := mapDelete room.member mem.roomIndex,
                          sfu := if (mapDelete room.member mem.roomIndex).length = 0
                                 then room.sfu.Close else room.sfu },
           members := s.members.set m { mem with send := ch, room := none, roomIndex := -1 } },
         decide ((mapDelete room.member mem.roomIndex).length = 0)) := by
  have hj : ¬ (mem.roomIndex < 0 ∨ mem.room ≠ some r) := by
    rintro (h | h)
    · exact hidx h
    · exact h hroom
  simp only [Leave, hr, hm, hj, if_false, hown, hslot]
  cases mem.send.close with
  | none => rfl
  | some ch =>
    by_cases hlen : (mapDelete room.member mem.roomIndex).length = 0
    · simp [hlen]
    · simp [hlen]

theorem WF_Leave {s s' : State} {r : RoomRef} {m : MemberRef} {b : Bool} (hwf : WF s)
    (h : Leave s r m = some (s', b)) : WF s' := by
  cases hr : s.rooms[r]? with
  | none => simp [Leave, hr] at h
  | some room =>
    cases hm : s.members[m]? with
    | none => simp [Leave, hr, hm] at h
    | some mem =>
      by_cases hj : mem.roomIndex < 0 ∨ mem.room ≠ some r
      · rw [Leave_not_joined hr hm hj] at h
        cases h
        exact hwf
      · have hidx : ¬ mem.roomIndex < 0 := fun h1 => hj (Or.inl h1)
        have hroom : mem.room = some r := by
          by_contra h1
          exact hj (Or.inr h1)
        by_cases hown : mem.index = room.master
        · rw [Leave_owner hr hm hidx hroom hown] at h
          cases hd : dissolveAll s.members room.member with
          | none => simp [hd] at h
          | some ms =>
            simp only [hd, Option.map_some', Option.some.injEq, Prod.mk.injEq] at h
            rw [← h.1]
            exact WF_Leave_owner hwf hr hd _
        · obtain ⟨_, hget, _, _⟩ := joined_slot hwf hr hm hroom
          rw [Leave_member hr hm hidx hroom hown hget] at h
          cases hcl : mem.send.close with
          | none => simp [hcl] at h
          | some ch =>
            simp only [hcl, Option.map_some', Option.some.injEq, Prod.mk.injEq] at h
            obtain ⟨_, hch⟩ := Chan.close_eq_some hcl
            rw [← h.1]
            exact WF_Leave_member hwf hr hm hroom _ ch (by rw [hch]; exact (hwf.2 m mem hm).1)

/-! ## `Broadcast` -/

theorem Chan.trySend_eq_some {c ch : Chan} {msg : Bytes} {b : Bool}
    (h : c.trySend msg = some (ch, b)) :
    c.closed = false ∧ ch.cap = c.cap ∧ ch.closed = false ∧
      ch.buf = if c.buf.length < c.cap then c.buf ++ [msg] else c.buf := by
  unfold Chan.trySend at h
  by_cases hc : c.closed = true
  · simp [hc] at h
  · have hc' : c.closed = false := by simpa using hc
    by_cases hlen : c.buf.length < c.cap
    · simp only [hc', Bool.false_eq_true, if_false, hlen, if_true, Option.some.injEq,
        Prod.mk.injEq] at h
      obtain ⟨h1, _⟩ := h
      subst h1
      simp [hc', hlen]
    · simp only [hc', Bool.false_eq_true, if_false, hlen, Option.some.injEq,
        Prod.mk.injEq] at h
      obtain ⟨h1, _⟩ := h
      subst h1
      simp [hc', hlen]

theorem broadcastAll_frame {tbl : List (Int × MemberRef)} {ms ms' : List Member} {msg : Bytes}
    {senderID : String} (h : broadcastAll ms msg senderID tbl = some ms') (m0 : MemberRef) :
    (ms'[m0]?).map Member.frame = (ms[m0]?).map Member.frame := by
  induction tbl generalizing ms with
  | nil =>
    simp only [broadcastAll, Option.some.injEq] at h
    subst h
    rfl
  | cons e rest ih =>
    obtain ⟨k, m1⟩ := e
    unfold broadcastAll at h
    cases hm1 : ms[m1]? with
    | none => simp [hm1] at h
    | some mem1 =>
      simp only [hm1] at h
      by_cases hs : mem1.index = senderID
      · simp only [hs, if_true] at h
        exact ih h
      · simp only [hs, if_false] at h
        cases hts : mem1.send.trySend msg with
        | none => simp [hts] at h
        | some p =>
          obtain ⟨ch, b⟩ := p
          simp only [hts] at h
          obtain ⟨h1, h2, h3, _⟩ := Chan.trySend_eq_some hts
          rw [ih h, getElem?_set_of_some hm1]
          by_cases hm0 : m0 = m1
          · subst hm0
            simp [hm1, Member.frame, h1, h2, h3]
          · simp [hm0]


theorem frame_some {a b : Option Member} (h : a.map Member.frame = b.map Member.frame)
    {mem : Member} (hb : b = some mem) : ∃ mem', a = some mem' ∧ mem'.frame = mem.frame := by
  subst hb
  cases a with
  | none => simp at h
  | some mem' => exact ⟨mem', rfl, by simpa using h⟩

theorem WF_Broadcast {s s' : State} {r : RoomRef} {msg : Bytes} {senderID : String}
    (hwf : WF s) (h : Broadcast s r msg senderID = some s') : WF s' := by
  unfold Broadcast at h
  cases hr : s.rooms[r]? with
  | none => simp [hr] at h
  | some room =>
    simp only [hr] at h
    cases hb : broadcastAll s.members msg senderID room.member with
    | none => simp [hb] at h
    | some ms =>
      simp only [hb, Option.some.injEq] at h
      subst h
      constructor
      · intro r0 room0 hr0
        refine ⟨(hwf.1 r0 room0 hr0).1, ?_⟩
        intro j m0 hmem
        obtain ⟨h1, h2, mem0, hm0, h3, h4⟩ := (hwf.1 r0 room0 hr0).2 j m0 hmem
        obtain ⟨mem', hm', hfr⟩ := frame_some (broadcastAll_frame hb m0) hm0
        simp only [Member.frame, Prod.mk.injEq] at hfr
        exact ⟨h1, h2, mem', hm', by rw [hfr.2.2.1]; exact h3, by rw [hfr.2.2.2.1]; exact h4⟩
      · intro m0 mem0 hm0
        simp only at hm0
        obtain ⟨mem', hm', hfr⟩ := frame_some (broadcastAll_frame hb m0).symm hm0
        simp only [Member.frame, Prod.mk.injEq] at hfr
        obtain ⟨hcap, hcase⟩ := hwf.2 m0 mem' hm'
        refine ⟨by rw [← hfr.2.2.2.2.1]; exact hcap, ?_⟩
        rw [← hfr.2.2.1, ← hfr.2.2.2.1]
        exact hcase

theorem Chan.trySend_of_open {c : Chan} (h : c.closed = false) (msg : Bytes) :
    c.trySend msg =
      some (if c.buf.length < c.cap then ({ c with buf := c.buf ++ [msg] }, true)
            else (c, false)) := by
  unfold Chan.trySend
  by_cases hlen : c.buf.length < c.cap <;> simp [h, hlen]

theorem broadcastAll_spec {tbl : List (Int × MemberRef)} {ms : List Member} (msg : Bytes)
    (senderID : String) (hnd : (tbl.map Prod.snd).Nodup)
    (hopen : ∀ m0 ∈ tbl.map Prod.snd, ∃ mem0, ms[m0]? = some mem0 ∧
      (mem0.index ≠ senderID → mem0.send.closed = false)) :
    ∃ ms', broadcastAll ms msg senderID tbl = some ms' ∧
      ∀ m0, ms'[m0]? = (ms[m0]?).map fun mem0 =>
        if m0 ∈ tbl.map Prod.snd ∧ mem0.index ≠ senderID ∧ mem0.send.buf.length < mem0.send.cap
        then mem0.enqueued msg else mem0 := by
  induction tbl generalizing ms with
  | nil =>
    refine ⟨ms, rfl, ?_⟩
    intro m0
    cases ms[m0]? <;> simp
  | cons e rest ih =>
    obtain ⟨k, m1⟩ := e
    simp only [List.map_cons, List.nodup_cons] at hnd
    obtain ⟨mem1, hm1, hop1⟩ := hopen m1 (by simp)
    unfold broadcastAll
    simp only [hm1]
    by_cases hs : mem1.index = senderID
    · simp only [hs, if_true]
      obtain ⟨ms', hres, hspec⟩ := ih hnd.2 (fun m0 hm0 => hopen m0 (by simp [hm0]))
      refine ⟨ms', hres, ?_⟩
      intro m0
      rw [hspec m0]
      by_cases hm0 : m0 = m1
      · subst hm0
        simp [hm1, hs]
      · simp only [List.map_cons, List.mem_cons, hm0, false_or]
    · simp only [hs, if_false, Chan.trySend_of_open (hop1 hs) msg]
      have hopen' : ∀ m0 ∈ rest.map Prod.snd, ∃ mem0,
          (ms.set m1 { mem1 with send := (if mem1.send.buf.length < mem1.send.cap then
              ({ mem1.send with buf := mem1.send.buf ++ [msg] }, true)
              else (mem1.send, false)).1 })[m0]? = some mem0 ∧
            (mem0.index ≠ senderID → mem0.send.closed = false) := by
        intro m0 hm0
        have hne : m0 ≠ m1 := by
          intro heq
          subst heq
          exact hnd.1 hm0
        obtain ⟨mem0, h1, h2⟩ := hopen m0 (by simp [hm0])
        exact ⟨mem0, by rw [getElem?_set_of_some hm1, if_neg hne]; exact h1, h2⟩
      obtain ⟨ms', hres, hspec⟩ := ih hnd.2 hopen'
      refine ⟨ms', hres, ?_⟩
      intro m0
      rw [hspec m0, getElem?_set_of_some hm1]
      by_cases hm0 : m0 = m1
      · subst hm0
        have hnot : m0 ∉ rest.map Prod.snd := hnd.1
        by_cases hlen : mem1.send.buf.length < mem1.send.cap
        · simp [hm1, hs, hlen, Member.enqueued, hnot]
        · simp [hm1, hs, hlen, hnot]
      · simp only [List.map_cons, List.mem_cons, hm0, false_or, if_false]

/-! ## The invariant holds in every reachable state -/

theorem WF_init : WF State.init := by
  constructor
  · intro r room h
    simp [State.init] at h
  · intro m mem h
    simp [State.init] at h

theorem WF_NewRoom {s : State} (hwf : WF s) (name masterID : String) (limits : Int)
    (id sfuID : String) : WF (NewRoom s name masterID limits id sfuID).1 := by
  constructor
  · intro r0 room0 hr0
    simp only [NewRoom, getElem?_append_one] at hr0
    by_cases h : r0 = s.rooms.length
    · simp only [h, if_true, Option.some.injEq] at hr0
      subst hr0
      exact ⟨by simp, by simp⟩
    · simp only [h, if_false] at hr0
      exact hwf.1 r0 room0 hr0
  · intro m0 mem0 hm0
    simp only [NewRoom] at hm0
    obtain ⟨hcap, hcase⟩ := hwf.2 m0 mem0 hm0
    refine ⟨hcap, ?_⟩
    rcases hcase with hnone | ⟨r0, room0, h1, h2, h3⟩
    · exact Or.inl hnone
    · refine Or.inr ⟨r0, room0, h1, ?_, h3⟩
      have hlt := lt_length_of_getElem? h2
      simp only [NewRoom, getElem?_append_one]
      rw [if_neg (by omega)]
      exact h2

theorem WF_NewMember {s : State} (hwf : WF s) (userID name freshID peerID : String) :
    WF (NewMember s userID name freshID peerID).1 := by
  constructor
  · intro r0 room0 hr0
    simp only [NewMember] at hr0
    refine ⟨(hwf.1 r0 room0 hr0).1, ?_⟩
    intro j m0 hmem
    obtain ⟨h1, h2, mem0, hm0, h3, h4⟩ := (hwf.1 r0 room0 hr0).2 j m0 hmem
    refine ⟨h1, h2, mem0, ?_, h3, h4⟩
    have hlt := lt_length_of_getElem? hm0
    simp only [NewMember, getElem?_append_one]
    rw [if_neg (by omega)]
    exact hm0
  · intro m0 mem0 hm0
    simp only [NewMember, getElem?_append_one] at hm0
    by_cases h : m0 = s.members.length
    · simp only [h, if_true, Option.some.injEq] at hm0
      subst hm0
      exact ⟨rfl, Or.inl ⟨rfl, rfl⟩⟩
    · simp only [h, if_false] at hm0
      exact hwf.2 m0 mem0 hm0

theorem WF_step {s s' : State} {c : Call} (hwf : WF s) (h : step s c = some s') : WF s' := by
  cases c with
  | newRoom name masterID limits id sfuID =>
    simp only [step, Option.some.injEq] at h
    subst h
    exact WF_NewRoom hwf _ _ _ _ _
  | newMember userID name freshID peerID =>
    simp only [step, Option.some.injEq] at h
    subst h
    exact WF_NewMember hwf _ _ _ _
  | join r m =>
    simp only [step, Option.map_eq_some'] at h
    obtain ⟨⟨s1, b⟩, h1, h2⟩ := h
    simp only at h2
    subst h2
    exact WF_Join hwf h1
  | leave r m =>
    simp only [step, Option.map_eq_some'] at h
    obtain ⟨⟨s1, b⟩, h1, h2⟩ := h
    simp only at h2
    subst h2
    exact WF_Leave hwf h1
  | broadcast r msg senderID =>
    simp only [step] at h
    exact WF_Broadcast hwf h

theorem WF_exec {s s' : State} {cs : List Call} (hwf : WF s) (h : exec s cs = some s') :
    WF s' := by
  induction cs generalizing s with
  | nil =>
    simp only [exec, Option.some.injEq] at h
    subst h
    exact hwf
  | cons c cs ih =>
    simp only [exec, Option.bind_eq_some] at h
    obtain ⟨s1, h1, h2⟩ := h
    exact ih (WF_step hwf h1) h2

theorem WF_of_Reachable {s : State} (h : Reachable s) : WF s := by
  obtain ⟨cs, hcs⟩ := h
  exact WF_exec WF_init hcs


theorem demoState_reachable : Reachable demoState := ⟨demoTrace, by decide⟩

theorem rejoinState_reachable : Reachable rejoinState := ⟨rejoinTrace, by decide⟩


/-! ## Claims about `Join` -/

/-- C1: when the member has no slot and the table holds fewer than `limits` members,
`Join` returns true, installs the member at the smallest empty slot number `i` of
`1..limits`, sets the room pointer and the slot of the member to this room and to `i`, and
changes no other slot, no other member and no other room; the `return false` behind the
scan is not reached.  This holds in every state, reachable or not. -/
theorem Join_installs_at_first_empty_slot {s : State} {r : RoomRef} {m : MemberRef}
    {room : Room} {mem : Member} (hr : s.rooms[r]? = some room)
    (hm : s.members[m]? = some mem) (hslot : ¬ 0 < mem.roomIndex)
    (hlt : (room.member.length : Int) < room.limits) :
    ∃ i s' room',
      Join s r m = some (s', true) ∧
      1 ≤ i ∧ i ≤ room.limits ∧ mapGet room.member i = none ∧
      (∀ j, 1 ≤ j → j < i → mapGet room.member j ≠ none) ∧
      s'.rooms[r]? = some room' ∧
      mapGet room'.member i = some m ∧
      (∀ j, j ≠ i → mapGet room'.member j = mapGet room.member j) ∧
      s'.members[m]? = some { mem with room := some r, roomIndex := i } ∧
      (∀ m0, m0 ≠ m → s'.members[m0]? = s.members[m0]?) ∧
      (∀ r0, r0 ≠ r → s'.rooms[r0]? = s.rooms[r0]?) := by
  obtain ⟨i, hscan⟩ := Join_scan_finds hlt
  obtain ⟨h1, h2, h3, h4⟩ := joinScan_some hscan
  refine ⟨i, _, { room with member := mapSet room.member i m },
    Join_accept hr hm hslot hlt hscan, h1, h2, h3, h4, ?_, ?_, ?_, ?_, ?_, ?_⟩
  · simp only [getElem?_set_of_some hr, if_true]
  · simp [mapGet_mapSet]
  · intro j hj
    have : ¬ i = j := fun h => hj h.symm
    simp [mapGet_mapSet, this]
  · simp only [getElem?_set_of_some hm, if_true]
  · intro m0 hm0
    simp only [getElem?_set_of_some hm, hm0, if_false]
  · intro r0 hr0
    simp only [getElem?_set_of_some hr, hr0, if_false]

theorem Join_installs_at_first_empty_slot_witness :
    demoState.rooms[0]? = some demoRoom ∧
    (∃ mem, demoState.members[2]? = some mem ∧ ¬ 0 < mem.roomIndex) ∧
    (demoRoom.member.length : Int) < demoRoom.limits ∧
    ∃ s', Join demoState 0 2 = some (s', true) := by
  have hr : demoState.rooms[0]? = some demoRoom := by decide
  have hm : demoState.members[2]? = some
      { index := "b", name := "Bob", room := none, roomIndex := -1, send := Chan.make 256,
        sfuPeerID := "peer-2" } := by decide
  have hlt : (demoRoom.member.length : Int) < demoRoom.limits := by decide
  obtain ⟨i, s', room', h, _⟩ :=
    Join_installs_at_first_empty_slot hr hm (by decide) hlt
  exact ⟨hr, ⟨_, hm, by decide⟩, hlt, s', h⟩

/-- C2: `Join` returns false exactly when the member already has a slot or the table
already holds `limits` or more members, and then it changes nothing: the table, the room
pointer and the slot of the member are as before. -/
theorem Join_false_iff_slot_or_full {s : State} {r : RoomRef} {m : MemberRef} {room : Room}
    {mem : Member} (hr : s.rooms[r]? = some room) (hm : s.members[m]? = some mem) :
    ∃ s' b, Join s r m = some (s', b) ∧
      (b = false ↔ (0 < mem.roomIndex ∨ room.limits ≤ (room.member.length : Int))) ∧
      (b = false → s' = s) := by
  by_cases h : 0 < mem.roomIndex ∨ room.limits ≤ (room.member.length : Int)
  · exact ⟨s, false, Join_reject hr hm h, by simp [h], fun _ => rfl⟩
  · have hslot : ¬ 0 < mem.roomIndex := fun h1 => h (Or.inl h1)
    have hlt : (room.member.length : Int) < room.limits := by
      by_contra h1
      exact h (Or.inr (not_lt.mp h1))
    obtain ⟨i, hscan⟩ := Join_scan_finds hlt
    exact ⟨_, true, Join_accept hr hm hslot hlt hscan, by simp [h], by simp⟩

theorem Join_false_iff_slot_or_full_witness :
    demoState.rooms[0]? = some demoRoom ∧
    (∃ mem, demoState.members[1]? = some mem ∧ 0 < mem.roomIndex) ∧
    Join demoState 0 1 = some (demoState, false) := by
  have hr : demoState.rooms[0]? = some demoRoom := by decide
  have hm : demoState.members[1]? = some
      { index := "a", name := "Ann", room := some 0, roomIndex := 2, send := Chan.make 256,
        sfuPeerID := "peer-1" } := by decide
  obtain ⟨s', b, h, hiff, hsame⟩ := Join_false_iff_slot_or_full hr hm
  have hb : b = false := hiff.mpr (Or.inl (by decide))
  rw [hsame hb, hb] at h
  exact ⟨hr, ⟨_, hm, by decide⟩, h⟩

/-! ## Calls that panic: lemmas -/

/-- C3, as the claim states it, fails: a room made by `NewRoom` with `limits = -1` holds
0 members, and 0 is not at most -1. -/
theorem capacity_fails_for_negative_limits :
    Reachable (NewRoom State.init "R" "o" (-1) "room-1" "sfu-1").1 ∧
    ((NewRoom State.init "R" "o" (-1) "room-1" "sfu-1").1.rooms[0]?).map
        (fun room => (room.limits, room.member.length,
          decide ((room.member.length : Int) ≤ room.limits))) =
      some (-1, 0, false) :=
  ⟨⟨[.newRoom "R" "o" (-1) "room-1" "sfu-1"], by decide⟩, by decide⟩

/-- C3, amended: in every reachable state the number of members in the table of a room is
at most `max limits 0`; it is at most `limits` whenever `limits` is not negative. -/
theorem capacity_bound {s : State} (hs : Reachable s) {r : RoomRef} {room : Room}
    (hr : s.rooms[r]? = some room) :
    (room.member.length : Int) ≤ max room.limits 0 ∧
      (0 ≤ room.limits → (room.member.length : Int) ≤ room.limits) := by
  have hwf := (WF_of_Reachable hs).1 r room hr
  have h := length_le_of_keys_in_range hwf.1
    (fun i m hmem => ⟨(hwf.2 i m hmem).1, (hwf.2 i m hmem).2.1⟩)
  exact ⟨h, fun h0 => by rw [max_eq_left h0] at h; exact h⟩

theorem capacity_bound_witness :
    Reachable demoState ∧ demoState.rooms[0]? = some demoRoom ∧
    (demoRoom.member.length : Int) ≤ max demoRoom.limits 0 :=
  ⟨demoState_reachable, by decide,
    (capacity_bound demoState_reachable
      (show demoState.rooms[0]? = some demoRoom by decide)).1⟩

/-- C5, as the claim states it, fails: after `rejoinTrace` the owner is joined to the
room, and its `Leave` panics on the closed send queue of the member that joined again. -/
theorem owner_Leave_panics_after_rejoin :
    Reachable rejoinState ∧
    (rejoinState.members[0]?).map (fun mem => (mem.room, mem.roomIndex, mem.index)) =
      some (some 0, 1, "o") ∧
    (rejoinState.rooms[0]?).map (fun room => (room.master, room.member)) =
      some ("o", [(2, 1), (1, 0)]) ∧
    Leave rejoinState 0 0 = none :=
  ⟨⟨rejoinTrace, by decide⟩, by decide, by decide, by decide⟩

/-- C5, amended: in a reachable state in which every member of the table has an open send
queue, `Leave` of a member joined to the room whose user id is the owner id returns true;
afterwards the table is empty and every member that was in the table, the leaving one
included, has its send queue closed, no room and slot `-1`; the members outside the table
and the other rooms are unchanged. -/
theorem owner_Leave_dissolves {s : State} (hs : Reachable s) {r : RoomRef} {m : MemberRef}
    {room : Room} {mem : Member} (hr : s.rooms[r]? = some room)
    (hm : s.members[m]? = some mem) (hroom : mem.room = some r)
    (hown : mem.index = room.master)
    (hopen : ∀ i m0 mem0, (i, m0) ∈ room.member → s.members[m0]? = some mem0 →
      mem0.send.closed = false) :
    ∃ s' room',
      Leave s r m = some (s', true) ∧
      s'.rooms[r]? = some room' ∧ room'.member = [] ∧
      (mem.roomIndex, m) ∈ room.member ∧
      (∀ i m0 mem0, (i, m0) ∈ room.member → s.members[m0]? = some mem0 →
        s'.members[m0]? = some mem0.dissolved) ∧
      (∀ m0, m0 ∉ room.member.map Prod.snd → s'.members[m0]? = s.members[m0]?) ∧
      (∀ r0, r0 ≠ r → s'.rooms[r0]? = s.rooms[r0]?) := by
  have hwf := WF_of_Reachable hs
  obtain ⟨hin, _, h1, _⟩ := joined_slot hwf hr hm hroom
  have hidx : ¬ mem.roomIndex < 0 := by omega
  have halloc : ∀ m0 ∈ room.member.map Prod.snd,
      ∃ mem0, s.members[m0]? = some mem0 ∧ mem0.send.closed = false := by
    intro m0 hm0
    obtain ⟨e, he, hsnd⟩ := List.mem_map.mp hm0
    obtain ⟨i, m'⟩ := e
    simp only at hsnd
    subst hsnd
    obtain ⟨_, _, mem0, hmem0, _, _⟩ := (hwf.1 r room hr).2 i m' he
    exact ⟨mem0, hmem0, hopen i m' mem0 he hmem0⟩
  obtain ⟨ms, hd⟩ := dissolveAll_succeeds (refs_nodup (hwf.1 r room hr)) halloc
  refine ⟨{ rooms := s.rooms.set r { room with member := [], sfu := room.sfu.Close },
            members := ms },
    { room with member := [], sfu := room.sfu.Close }, ?_, ?_, rfl, hin, ?_, ?_, ?_⟩
  · rw [Leave_owner hr hm hidx hroom hown, hd]
    rfl
  · simp only [getElem?_set_of_some hr, if_true]
  · intro i m0 mem0 hmem hm0
    obtain ⟨mem1, hm1, _, hres⟩ :=
      (dissolveAll_spec hd m0).1 (List.mem_map.mpr ⟨(i, m0), hmem, rfl⟩)
    rw [hm0] at hm1
    cases hm1
    exact hres
  · intro m0 hnot
    exact (dissolveAll_spec hd m0).2 hnot
  · intro r0 hr0
    simp only [getElem?_set_of_some hr, hr0, if_false]

theorem owner_Leave_dissolves_witness :
    Reachable demoState ∧ demoState.rooms[0]? = some demoRoom ∧
    (demoState.members[0]?).map (fun mem => (mem.room, mem.index)) = some (some 0, "o") ∧
    ∃ s', Leave demoState 0 0 = some (s', true) := by
  have hr : demoState.rooms[0]? = some demoRoom := by decide
  have hm : demoState.members[0]? = some
      { index := "o", name := "Olga", room := some 0, roomIndex := 1, send := Chan.make 256,
        sfuPeerID := "peer-0" } := by decide
  have hopen : ∀ i m0 mem0, (i, m0) ∈ demoRoom.member → demoState.members[m0]? = some mem0 →
      mem0.send.closed = false := by
    intro i m0 mem0 hmem hm0
    simp only [demoRoom, List.mem_cons, Prod.mk.injEq, List.mem_nil_iff, or_false] at hmem
    rcases hmem with ⟨_, h⟩ | ⟨_, h⟩
    · subst h
      have : demoState.members[1]? = some
          { index := "a", name := "Ann", room := some 0, roomIndex := 2,
            send := Chan.make 256, sfuPeerID := "peer-1" } := by decide
      rw [this] at hm0
      cases hm0
      rfl
    · subst h
      rw [hm] at hm0
      cases hm0
      rfl
  obtain ⟨s', _, h, _⟩ := owner_Leave_dissolves demoState_reachable hr hm rfl rfl hopen
  exact ⟨demoState_reachable, hr, by decide, s', h⟩

/-- C6, as the claim states it, fails: after `rejoinTrace` user `a` is joined to the room
and is not its owner, and its `Leave` panics on its own send queue, closed by its earlier
`Leave`. -/
theorem member_Leave_panics_after_rejoin :
    Reachable rejoinState ∧
    (rejoinState.members[1]?).map (fun mem => (mem.room, mem.roomIndex, mem.index)) =
      some (some 0, 2, "a") ∧
    (rejoinState.rooms[0]?).map (fun room => (room.master, room.member)) =
      some ("o", [(2, 1), (1, 0)]) ∧
    Leave rejoinState 0 1 = none :=
  ⟨⟨rejoinTrace, by decide⟩, by decide, by decide, by decide⟩

/-- C6, amended: in a reachable state, `Leave` of a member joined to the room whose user
id is not the owner id and whose send queue is open deletes the slot of that member and
no other, closes its send queue and clears its room pointer and slot, changes no other
member and no other room, and returns true exactly when the table is empty afterwards. -/
theorem member_Leave_frees_slot {s : State} (hs : Reachable s) {r : RoomRef} {m : MemberRef}
    {room : Room} {mem : Member} (hr : s.rooms[r]? = some room)
    (hm : s.members[m]? = some mem) (hroom : mem.room = some r)
    (hown : mem.index ≠ room.master) (hopen : mem.send.closed = false) :
    ∃ s' b room',
      Leave s r m = some (s', b) ∧
      s'.rooms[r]? = some room' ∧
      mapGet room.member mem.roomIndex = some m ∧
      (∀ j, mapGet room'.member j = if mem.roomIndex = j then none else mapGet room.member j) ∧
      room'.member.length + 1 = room.member.length ∧
      s'.members[m]? = some mem.dissolved ∧
      (∀ m0, m0 ≠ m → s'.members[m0]? = s.members[m0]?) ∧
      (∀ r0, r0 ≠ r → s'.rooms[r0]? = s.rooms[r0]?) ∧
      (b = true ↔ room'.member = []) := by
  have hwf := WF_of_Reachable hs
  obtain ⟨_, hget, h1, _⟩ := joined_slot hwf hr hm hroom
  have hidx : ¬ mem.roomIndex < 0 := by omega
  refine ⟨{ rooms := s.rooms.set r
              { room with member := mapDelete room.member mem.roomIndex,
                          sfu := if (mapDelete room.member mem.roomIndex).length = 0
                                 then room.sfu.Close else room.sfu },
            members := s.members.set m mem.dissolved },
    decide ((mapDelete room.member mem.roomIndex).length = 0),
    { room with member := mapDelete room.member mem.roomIndex,
                sfu := if (mapDelete room.member mem.roomIndex).length = 0
                       then room.sfu.Close else room.sfu },
    ?_, ?_, hget, ?_, ?_, ?_, ?_, ?_, ?_⟩
  · rw [Leave_member hr hm hidx hroom hown hget, Chan.close_of_open hopen]
    rfl
  · simp only [getElem?_set_of_some hr, if_true]
  · intro j
    exact mapGet_mapDelete _ _ _
  · exact length_mapDelete_of_some (hwf.1 r room hr).1 hget
  · simp only [getElem?_set_of_some hm, if_true]
  · intro m0 hm0
    simp only [getElem?_set_of_some hm, hm0, if_false]
  · intro r0 hr0
    simp only [getElem?_set_of_some hr, hr0, if_false]
  · simp [List.length_eq_zero]

theorem member_Leave_frees_slot_witness :
    Reachable demoState ∧ demoState.rooms[0]? = some demoRoom ∧
    (demoState.members[1]?).map (fun mem => (mem.room, mem.index, mem.send.closed)) =
      some (some 0, "a", false) ∧
    ∃ s', Leave demoState 0 1 = some (s', false) := by
  have hr : demoState.rooms[0]? = some demoRoom := by decide
  have hm : demoState.members[1]? = some
      { index := "a", name := "Ann", room := some 0, roomIndex := 2, send := Chan.make 256,
        sfuPeerID := "peer-1" } := by decide
  obtain ⟨s', b, room', h, _⟩ :=
    member_Leave_frees_slot demoState_reachable hr hm rfl (by decide) rfl
  have hb : Leave demoState 0 1 = some (s', false) := by
    have hfalse : (Leave demoState 0 1).map Prod.snd = some false := by decide
    rw [h] at hfalse
    simp only [Option.map_some', Option.some.injEq] at hfalse
    rw [h, hfalse]
  exact ⟨demoState_reachable, hr, by decide, s', hb⟩

/-! ## Claims about `Broadcast` -/

/-- C8, as the claim states it, fails: after `rejoinTrace` the table holds user `a`, whose
user id differs from the sender id `o` and whose queue is empty, and `Broadcast` panics
on the closed queue of `a` instead of appending the message. -/
theorem Broadcast_panics_after_rejoin :
    Reachable rejoinState ∧
    (rejoinState.rooms[0]?).map (fun room => room.member) = some [(2, 1), (1, 0)] ∧
    (rejoinState.members[1]?).map (fun mem => (mem.index, mem.send.buf, mem.send.closed)) =
      some ("a", [], true) ∧
    Broadcast rejoinState 0 [104, 105] "o" = none :=
  ⟨⟨rejoinTrace, by decide⟩, by decide, by decide, by decide⟩

/-- C8, amended: in a reachable state in which every member of the table whose user id
differs from the sender id has an open send queue, `Broadcast` returns, leaves every room
and so every table unchanged, appends the message to the end of the send queue of each
member of the table whose user id differs from the sender id and whose queue holds fewer
than 256 messages, and leaves unchanged every member whose user id is the sender id, whose
queue holds 256 messages or more, or that is not in the table. -/
theorem Broadcast_enqueues {s : State} (hs : Reachable s) {r : RoomRef} {room : Room}
    (hr : s.rooms[r]? = some room) (msg : Bytes) (senderID : String)
    (hopen : ∀ i m0 mem0, (i, m0) ∈ room.member → s.members[m0]? = some mem0 →
      mem0.index ≠ senderID → mem0.send.closed = false) :
    ∃ s',
      Broadcast s r msg senderID = some s' ∧
      s'.rooms = s.rooms ∧
      (∀ i m0 mem0, (i, m0) ∈ room.member → s.members[m0]? = some mem0 →
        mem0.index ≠ senderID → mem0.send.buf.length < 256 →
        s'.members[m0]? = some (mem0.enqueued msg)) ∧
      (∀ m0 mem0, s.members[m0]? = some mem0 →
        (mem0.index = senderID ∨ 256 ≤ mem0.send.buf.length ∨
          m0 ∉ room.member.map Prod.snd) →
        s'.members[m0]? = some mem0) := by
  have hwf := WF_of_Reachable hs
  have halloc : ∀ m0 ∈ room.member.map Prod.snd, ∃ mem0, s.members[m0]? = some mem0 ∧
      (mem0.index ≠ senderID → mem0.send.closed = false) := by
    intro m0 hm0
    obtain ⟨e, he, hsnd⟩ := List.mem_map.mp hm0
    obtain ⟨i, m'⟩ := e
    simp only at hsnd
    subst hsnd
    obtain ⟨_, _, mem0, hmem0, _, _⟩ := (hwf.1 r room hr).2 i m' he
    exact ⟨mem0, hmem0, hopen i m' mem0 he hmem0⟩
  obtain ⟨ms, hb, hspec⟩ :=
    broadcastAll_spec msg senderID (refs_nodup (hwf.1 r room hr)) halloc
  refine ⟨{ s with members := ms }, ?_, rfl, ?_, ?_⟩
  · simp only [Broadcast, hr, hb]
  · intro i m0 mem0 hmem hm0 hne hlen
    have hin : m0 ∈ room.member.map Prod.snd := List.mem_map.mpr ⟨(i, m0), hmem, rfl⟩
    have hcap := (hwf.2 m0 mem0 hm0).1
    simp only [hspec m0, hm0, Option.map_some', Option.some.injEq]
    rw [if_pos ⟨hin, hne, by rw [hcap]; exact hlen⟩]
  · intro m0 mem0 hm0 hcase
    have hcap := (hwf.2 m0 mem0 hm0).1
    simp only [hspec m0, hm0, Option.map_some', Option.some.injEq]
    rw [if_neg]
    rintro ⟨h1, h2, h3⟩
    rcases hcase with h | h | h
    · exact h2 h
    · rw [hcap] at h3
      omega
    · exact h h1

theorem Broadcast_enqueues_witness :
    Reachable demoState ∧ demoState.rooms[0]? = some demoRoom ∧
    (∃ s', Broadcast demoState 0 [104, 105] "o" = some s' ∧
      (s'.members[1]?).map (fun mem => mem.send.buf) = some [[104, 105]]) := by
  have hr : demoState.rooms[0]? = some demoRoom := by decide
  have hm1 : demoState.members[1]? = some
      { index := "a", name := "Ann", room := some 0, roomIndex := 2, send := Chan.make 256,
        sfuPeerID := "peer-1" } := by decide
  have hm0 : demoState.members[0]? = some
      { index := "o", name := "Olga", room := some 0, roomIndex := 1, send := Chan.make 256,
        sfuPeerID := "peer-0" } := by decide
  have hopen : ∀ i m0 mem0, (i, m0) ∈ demoRoom.member → demoState.members[m0]? = some mem0 →
      mem0.index ≠ "o" → mem0.send.closed = false := by
    intro i m0 mem0 hmem hmem0 _
    simp only [demoRoom, List.mem_cons, Prod.mk.injEq, List.mem_nil_iff, or_false] at hmem
    rcases hmem with ⟨_, h⟩ | ⟨_, h⟩
    · subst h
      rw [hm1] at hmem0
      cases hmem0
      rfl
    · subst h
      rw [hm0] at hmem0
      cases hmem0
      rfl
  obtain ⟨s', h, _, henq, _⟩ :=
    Broadcast_enqueues demoState_reachable hr [104, 105] "o" hopen
  have h1 := henq 2 1 _ (by decide) hm1 (by decide) (by decide)
  exact ⟨demoState_reachable, hr, s', h, by rw [h1]; rfl⟩


/-! ## ICE candidates and the remote description -/

theorem appliedCandidates_append (a b : List StackEvent) :
    appliedCandidates (a ++ b) = appliedCandidates a ++ appliedCandidates b := by
  induction a with
  | nil => rfl
  | cons e rest ih =>
    obtain ⟨c, ok⟩ := e
    cases c <;> simp [appliedCandidates, ih]

theorem applyCandidates_spec (stk : Stack) (p : SFUPeer) (cs : List ICECandidateInit) :
    appliedCandidates (SFUPeer.applyCandidates stk p cs).calls =
        appliedCandidates p.calls ++ cs ∧
      (SFUPeer.applyCandidates stk p cs).remoteDescriptionSet = p.remoteDescriptionSet ∧
      (SFUPeer.applyCandidates stk p cs).forwardedTracks = p.forwardedTracks ∧
      ∃ ext, (SFUPeer.applyCandidates stk p cs).calls = p.calls ++ ext ∧
        addedTracks ext = [] := by
  induction cs generalizing p with
  | nil => exact ⟨by simp [SFUPeer.applyCandidates], rfl, rfl, [], by simp [SFUPeer.applyCandidates], rfl⟩
  | cons c rest ih =>
    obtain ⟨h1, h2, h3, ext, h4, h5⟩ :=
      ih (p.record (.addICECandidate c) (stk.addICECandidate p.calls c))
    simp only [SFUPeer.applyCandidates]
    refine ⟨?_, h2, h3, ⟨.addICECandidate c, stk.addICECandidate p.calls c⟩ :: ext, ?_, ?_⟩
    · rw [h1]
      simp [SFUPeer.record, appliedCandidates_append, appliedCandidates]
    · rw [h4]
      simp [SFUPeer.record]
    · simpa [addedTracks] using h5

theorem remoteDescriptionApplied_spec (stk : Stack) (p : SFUPeer) (sdp : String)
    (ty : SDPType) :
    (p.remoteDescriptionApplied stk sdp ty).remoteDescriptionSet = true ∧
      (p.remoteDescriptionApplied stk sdp ty).pendingCandidates = [] ∧
      appliedCandidates (p.remoteDescriptionApplied stk sdp ty).calls =
        appliedCandidates p.calls ++ p.pendingCandidates ∧
      (p.remoteDescriptionApplied stk sdp ty).forwardedTracks = p.forwardedTracks ∧
      ∃ ext, (p.remoteDescriptionApplied stk sdp ty).calls = p.calls ++ ext ∧
        addedTracks ext = [] := by
  obtain ⟨h1, h2, h3, ext, h4, h5⟩ := applyCandidates_spec stk
    { p.record (.setRemoteDescription sdp ty) true with remoteDescriptionSet := true }
    p.pendingCandidates
  refine ⟨h2, rfl, ?_, h3, ⟨.setRemoteDescription sdp ty, true⟩ :: ext, ?_, ?_⟩
  · show appliedCandidates (SFUPeer.applyCandidates stk _ p.pendingCandidates).calls = _
    rw [h1]
    show appliedCandidates (p.calls ++ [_]) ++ _ = _
    simp [appliedCandidates_append, appliedCandidates]
  · show (SFUPeer.applyCandidates stk _ p.pendingCandidates).calls = _
    rw [h4]
    show (p.calls ++ [_]) ++ ext = _
    simp
  · simpa [addedTracks] using h5

/-- The three ways in which `SetRemoteDescription` returns. -/
theorem SetRemoteDescription_cases (stk : Stack) (p : SFUPeer) (sdp typeStr : String) :
    (sdpTypeOf typeStr = none ∧
        SFUPeer.SetRemoteDescription stk p sdp typeStr = (p, .error (.unknownSDPType typeStr))) ∨
      (∃ ty, sdpTypeOf typeStr = some ty ∧ stk.setRemoteDescription p.calls sdp ty = true ∧
        SFUPeer.SetRemoteDescription stk p sdp typeStr =
          (p.remoteDescriptionApplied stk sdp ty, .ok ())) ∨
      (∃ ty, sdpTypeOf typeStr = some ty ∧ stk.setRemoteDescription p.calls sdp ty = false ∧
        SFUPeer.SetRemoteDescription stk p sdp typeStr =
          (p.record (.setRemoteDescription sdp ty) false,
           .error (.stack (.setRemoteDescription sdp ty)))) := by
  unfold SFUPeer.SetRemoteDescription
  cases hty : sdpTypeOf typeStr with
  | none => exact Or.inl ⟨rfl, rfl⟩
  | some ty =>
    by_cases hok : stk.setRemoteDescription p.calls sdp ty = true
    · exact Or.inr (Or.inl ⟨ty, rfl, hok, by simp [hok]⟩)
    · have hok' : stk.setRemoteDescription p.calls sdp ty = false := by simpa using hok
      exact Or.inr (Or.inr ⟨ty, rfl, hok', by simp [hok']⟩)

/-- The effect of one call on a peer whose flag is still unset after the call: the call
was an `AddICECandidate` that returned `nil` and appended its candidate to the pending
list, or a `SetRemoteDescription` that failed; nothing was passed to the stack as a
candidate. -/
theorem call_before_description (stk : Stack) (p : SFUPeer) (c : PeerCall)
    (h : (SFUPeer.call stk p c).1.remoteDescriptionSet = false) :
    p.remoteDescriptionSet = false ∧
      (SFUPeer.call stk p c).1.pendingCandidates =
        p.pendingCandidates ++ receivedCandidates [c] ∧
      appliedCandidates (SFUPeer.call stk p c).1.calls = appliedCandidates p.calls ∧
      ((∃ cand mid idx, c = .addICECandidate cand mid idx) →
        (SFUPeer.call stk p c).2 = true) := by
  cases c with
  | addICECandidate cand mid idx =>
    cases hrds : p.remoteDescriptionSet with
    | true =>
      exfalso
      simp only [SFUPeer.call, SFUPeer.AddICECandidate, hrds, Bool.not_true,
        Bool.false_eq_true, if_false] at h
      cases hok : stk.addICECandidate p.calls ⟨cand, mid, idx⟩ <;>
        simp [hok, SFUPeer.record, hrds] at h
    | false =>
      simp [SFUPeer.call, SFUPeer.AddICECandidate, hrds, receivedCandidates]
  | setRemoteDescription sdp typeStr =>
    rcases SetRemoteDescription_cases stk p sdp typeStr with
      ⟨_, heq⟩ | ⟨ty, _, _, heq⟩ | ⟨ty, _, _, heq⟩
    · have hc : SFUPeer.call stk p (.setRemoteDescription sdp typeStr) = (p, false) := by
        simp only [SFUPeer.call, heq]
      rw [hc] at h ⊢
      exact ⟨h, by simp [receivedCandidates], rfl, by simp⟩
    · have hc : SFUPeer.call stk p (.setRemoteDescription sdp typeStr) =
          (p.remoteDescriptionApplied stk sdp ty, true) := by
        simp only [SFUPeer.call, heq]
      rw [hc] at h
      rw [(remoteDescriptionApplied_spec stk p sdp ty).1] at h
      cases h
    · have hc : SFUPeer.call stk p (.setRemoteDescription sdp typeStr) =
          (p.record (.setRemoteDescription sdp ty) false, false) := by
        simp only [SFUPeer.call, heq]
      rw [hc] at h ⊢
      refine ⟨h, by simp [receivedCandidates, SFUPeer.record], ?_, by simp⟩
      simp [SFUPeer.record, appliedCandidates_append, appliedCandidates]

/-- The effect of one call on a peer whose flag is set and whose pending list is empty:
the flag stays set, the list stays empty, and the candidate of an `AddICECandidate` is
passed to the stack at once. -/
theorem call_after_description (stk : Stack) (p : SFUPeer) (c : PeerCall)
    (hrds : p.remoteDescriptionSet = true) (hpend : p.pendingCandidates = []) :
    (SFUPeer.call stk p c).1.remoteDescriptionSet = true ∧
      (SFUPeer.call stk p c).1.pendingCandidates = [] ∧
      appliedCandidates (SFUPeer.call stk p c).1.calls =
        appliedCandidates p.calls ++ receivedCandidates [c] := by
  cases c with
  | addICECandidate cand mid idx =>
    simp only [SFUPeer.call, SFUPeer.AddICECandidate, hrds, Bool.not_true,
      Bool.false_eq_true, if_false]
    cases hok : stk.addICECandidate p.calls ⟨cand, mid, idx⟩ <;>
      simp [SFUPeer.record, hrds, hpend, appliedCandidates_append, appliedCandidates,
        receivedCandidates]
  | setRemoteDescription sdp typeStr =>
    rcases SetRemoteDescription_cases stk p sdp typeStr with
      ⟨_, heq⟩ | ⟨ty, _, _, heq⟩ | ⟨ty, _, _, heq⟩
    · have hc : SFUPeer.call stk p (.setRemoteDescription sdp typeStr) = (p, false) := by
        simp only [SFUPeer.call, heq]
      rw [hc]
      exact ⟨hrds, hpend, by simp [receivedCandidates]⟩
    · have hc : SFUPeer.call stk p (.setRemoteDescription sdp typeStr) =
          (p.remoteDescriptionApplied stk sdp ty, true) := by
        simp only [SFUPeer.call, heq]
      rw [hc]
      obtain ⟨h1, h2, h3, _⟩ := remoteDescriptionApplied_spec stk p sdp ty
      exact ⟨h1, h2, by rw [h3, hpend]; simp [receivedCandidates]⟩
    · have hc : SFUPeer.call stk p (.setRemoteDescription sdp typeStr) =
          (p.record (.setRemoteDescription sdp ty) false, false) := by
        simp only [SFUPeer.call, heq]
      rw [hc]
      refine ⟨hrds, hpend, ?_⟩
      simp [SFUPeer.record, appliedCandidates_append, appliedCandidates, receivedCandidates]

theorem receivedCandidates_cons (c : PeerCall) (cs : List PeerCall) :
    receivedCandidates (c :: cs) = receivedCandidates [c] ++ receivedCandidates cs := by
  cases c <;> simp [receivedCandidates]

theorem calls_run_after_description (stk : Stack) (p : SFUPeer) (cs : List PeerCall)
    (hrds : p.remoteDescriptionSet = true) (hpend : p.pendingCandidates = []) :
    (SFUPeer.calls_run stk p cs).remoteDescriptionSet = true ∧
      (SFUPeer.calls_run stk p cs).pendingCandidates = [] ∧
      appliedCandidates (SFUPeer.calls_run stk p cs).calls =
        appliedCandidates p.calls ++ receivedCandidates cs := by
  induction cs generalizing p with
  | nil => simp [SFUPeer.calls_run, receivedCandidates, hrds, hpend]
  | cons c rest ih =>
    obtain ⟨h1, h2, h3⟩ := call_after_description stk p c hrds hpend
    obtain ⟨h4, h5, h6⟩ := ih (SFUPeer.call stk p c).1 h1 h2
    simp only [SFUPeer.calls_run]
    refine ⟨h4, h5, ?_⟩
    rw [h6, h3, receivedCandidates_cons c rest, List.append_assoc]

theorem calls_run_flag_mono (stk : Stack) (p : SFUPeer) (cs : List PeerCall)
    (hrds : p.remoteDescriptionSet = true) :
    (SFUPeer.calls_run stk p cs).remoteDescriptionSet = true := by
  induction cs generalizing p with
  | nil => exact hrds
  | cons c rest ih =>
    simp only [SFUPeer.calls_run]
    apply ih
    by_contra hne
    have hfalse : (SFUPeer.call stk p c).1.remoteDescriptionSet = false := by
      simpa using hne
    rw [(call_before_description stk p c hfalse).1] at hrds
    cases hrds

theorem calls_run_before_description (stk : Stack) (p : SFUPeer) (cs : List PeerCall)
    (h : (SFUPeer.calls_run stk p cs).remoteDescriptionSet = false) :
    (SFUPeer.calls_run stk p cs).pendingCandidates =
        p.pendingCandidates ++ receivedCandidates cs ∧
      appliedCandidates (SFUPeer.calls_run stk p cs).calls = appliedCandidates p.calls ∧
      ∀ before cand mid idx after, cs = before ++ .addICECandidate cand mid idx :: after →
        (SFUPeer.call stk (SFUPeer.calls_run stk p before)
            (.addICECandidate cand mid idx)).2 = true ∧
        appliedCandidates (SFUPeer.call stk (SFUPeer.calls_run stk p before)
            (.addICECandidate cand mid idx)).1.calls =
          appliedCandidates (SFUPeer.calls_run stk p before).calls := by
  induction cs generalizing p with
  | nil =>
    refine ⟨by simp [SFUPeer.calls_run, receivedCandidates], rfl, ?_⟩
    intro before cand mid idx after heq
    simp at heq
  | cons c rest ih =>
    simp only [SFUPeer.calls_run] at h ⊢
    have hstep : (SFUPeer.call stk p c).1.remoteDescriptionSet = false := by
      by_contra hne
      have htrue : (SFUPeer.call stk p c).1.remoteDescriptionSet = true := by simpa using hne
      rw [calls_run_flag_mono stk _ rest htrue] at h
      cases h
    obtain ⟨_, h2, h3, h4⟩ := call_before_description stk p c hstep
    obtain ⟨h5, h6, h7⟩ := ih (SFUPeer.call stk p c).1 h
    refine ⟨?_, ?_, ?_⟩
    · rw [h5, h2, receivedCandidates_cons c rest, List.append_assoc]
    · rw [h6, h3]
    · intro before cand mid idx after heq
      cases before with
      | nil =>
        simp only [List.nil_append, List.cons.injEq] at heq
        obtain ⟨hc, _⟩ := heq
        subst hc
        simp only [SFUPeer.calls_run]
        exact ⟨h4 ⟨cand, mid, idx, rfl⟩, h3⟩
      | cons b before' =>
        simp only [List.cons_append, List.cons.injEq] at heq
        obtain ⟨hc, hrest⟩ := heq
        subst hc
        simp only [SFUPeer.calls_run]
        exact h7 before' cand mid idx after hrest


theorem calls_run_append (stk : Stack) (p : SFUPeer) (a b : List PeerCall) :
    SFUPeer.calls_run stk p (a ++ b) =
      SFUPeer.calls_run stk (SFUPeer.calls_run stk p a) b := by
  induction a generalizing p with
  | nil => rfl
  | cons c rest ih =>
    simp only [List.cons_append, SFUPeer.calls_run]
    exact ih _

/-- C9: on a peer made by `AddPeer`, as long as no `SetRemoteDescription` has succeeded
(the flag is unset after the calls `pre`), every `AddICECandidate` returns `nil` and
passes nothing to the stack, the pending list is the list of the candidates received, in
order, and no candidate has been passed to the stack, failed `SetRemoteDescription` calls
in between changing nothing of this; the first `SetRemoteDescription` that succeeds passes
exactly the pending candidates to the stack, in arrival order, whatever the stack answers
to each, and leaves the pending list empty and the flag set; in all calls `post` that
follow no pending candidate is passed again. -/
theorem pending_candidates_applied_in_order (stk : Stack) (peerID : String)
    (pre : List PeerCall) (sdp typeStr : String)
    (hpre : (SFUPeer.calls_run stk (SFUPeer.fresh peerID) pre).remoteDescriptionSet = false)
    (hok : (SFUPeer.call stk (SFUPeer.calls_run stk (SFUPeer.fresh peerID) pre)
      (.setRemoteDescription sdp typeStr)).2 = true) :
    (∀ before cand mid idx after, pre = before ++ .addICECandidate cand mid idx :: after →
        (SFUPeer.call stk (SFUPeer.calls_run stk (SFUPeer.fresh peerID) before)
            (.addICECandidate cand mid idx)).2 = true ∧
        appliedCandidates (SFUPeer.call stk (SFUPeer.calls_run stk (SFUPeer.fresh peerID) before)
            (.addICECandidate cand mid idx)).1.calls =
          appliedCandidates (SFUPeer.calls_run stk (SFUPeer.fresh peerID) before).calls) ∧
      (SFUPeer.calls_run stk (SFUPeer.fresh peerID) pre).pendingCandidates =
        receivedCandidates pre ∧
      appliedCandidates (SFUPeer.calls_run stk (SFUPeer.fresh peerID) pre).calls = [] ∧
      appliedCandidates (SFUPeer.call stk (SFUPeer.calls_run stk (SFUPeer.fresh peerID) pre)
          (.setRemoteDescription sdp typeStr)).1.calls = receivedCandidates pre ∧
      (SFUPeer.call stk (SFUPeer.calls_run stk (SFUPeer.fresh peerID) pre)
          (.setRemoteDescription sdp typeStr)).1.pendingCandidates = [] ∧
      (SFUPeer.call stk (SFUPeer.calls_run stk (SFUPeer.fresh peerID) pre)
          (.setRemoteDescription sdp typeStr)).1.remoteDescriptionSet = true ∧
      ∀ post,
        (SFUPeer.calls_run stk (SFUPeer.fresh peerID)
            (pre ++ .setRemoteDescription sdp typeStr :: post)).remoteDescriptionSet = true ∧
        (SFUPeer.calls_run stk (SFUPeer.fresh peerID)
            (pre ++ .setRemoteDescription sdp typeStr :: post)).pendingCandidates = [] ∧
        appliedCandidates (SFUPeer.calls_run stk (SFUPeer.fresh peerID)
            (pre ++ .setRemoteDescription sdp typeStr :: post)).calls =
          receivedCandidates pre ++ receivedCandidates post := by
  obtain ⟨h1, h2, h3⟩ := calls_run_before_description stk (SFUPeer.fresh peerID) pre hpre
  have h1' : (SFUPeer.calls_run stk (SFUPeer.fresh peerID) pre).pendingCandidates =
      receivedCandidates pre := by
    rw [h1]
    rfl
  have h2' : appliedCandidates (SFUPeer.calls_run stk (SFUPeer.fresh peerID) pre).calls = [] := by
    rw [h2]
    rfl
  have hc : ∃ ty, SFUPeer.call stk (SFUPeer.calls_run stk (SFUPeer.fresh peerID) pre)
      (.setRemoteDescription sdp typeStr) =
      ((SFUPeer.calls_run stk (SFUPeer.fresh peerID) pre).remoteDescriptionApplied stk sdp ty,
        true) := by
    rcases SetRemoteDescription_cases stk (SFUPeer.calls_run stk (SFUPeer.fresh peerID) pre)
        sdp typeStr with ⟨_, heq⟩ | ⟨ty, _, _, heq⟩ | ⟨ty, _, _, heq⟩
    · simp [SFUPeer.call, heq] at hok
    · exact ⟨ty, by simp only [SFUPeer.call, heq]⟩
    · simp [SFUPeer.call, heq] at hok
  obtain ⟨ty, hc⟩ := hc
  obtain ⟨h4, h5, h6, _⟩ := remoteDescriptionApplied_spec stk
    (SFUPeer.calls_run stk (SFUPeer.fresh peerID) pre) sdp ty
  have happlied : appliedCandidates (SFUPeer.call stk
      (SFUPeer.calls_run stk (SFUPeer.fresh peerID) pre)
      (.setRemoteDescription sdp typeStr)).1.calls = receivedCandidates pre := by
    rw [hc]
    simp only
    rw [h6, h2', h1']
    rfl
  have hpend : (SFUPeer.call stk (SFUPeer.calls_run stk (SFUPeer.fresh peerID) pre)
      (.setRemoteDescription sdp typeStr)).1.pendingCandidates = [] := by
    rw [hc]
    exact h5
  have hflag : (SFUPeer.call stk (SFUPeer.calls_run stk (SFUPeer.fresh peerID) pre)
      (.setRemoteDescription sdp typeStr)).1.remoteDescriptionSet = true := by
    rw [hc]
    exact h4
  refine ⟨h3, h1', h2', happlied, hpend, hflag, ?_⟩
  intro post
  rw [calls_run_append]
  simp only [SFUPeer.calls_run]
  obtain ⟨h7, h8, h9⟩ := calls_run_after_description stk _ post hflag hpend
  exact ⟨h7, h8, by rw [h9, happlied]⟩

theorem pending_candidates_applied_in_order_witness :
    (SFUPeer.calls_run demoStack (SFUPeer.fresh "bob")
        [.addICECandidate "bad" none none, .setRemoteDescription "v=0" "rollback",
         .addICECandidate "c2" (some "0") (some 0)]).remoteDescriptionSet = false ∧
    appliedCandidates (SFUPeer.call demoStack
        (SFUPeer.calls_run demoStack (SFUPeer.fresh "bob")
          [.addICECandidate "bad" none none, .setRemoteDescription "v=0" "rollback",
           .addICECandidate "c2" (some "0") (some 0)])
        (.setRemoteDescription "v=0" "offer")).1.calls =
      [{ Candidate := "bad", SDPMid := none, SDPMLineIndex := none },
       { Candidate := "c2", SDPMid := some "0", SDPMLineIndex := some 0 }] :=
  ⟨by decide,
   (pending_candidates_applied_in_order demoStack "bob"
      [.addICECandidate "bad" none none, .setRemoteDescription "v=0" "rollback",
       .addICECandidate "c2" (some "0") (some 0)] "v=0" "offer" (by decide) (by decide)).2.2.2.1⟩


/-! ## The offer branch of `HandleSignalMessage` -/

theorem addedTracks_append (a b : List StackEvent) :
    addedTracks (a ++ b) = addedTracks a ++ addedTracks b := by
  induction a with
  | nil => rfl
  | cons e rest ih =>
    obtain ⟨c, ok⟩ := e
    cases c <;> simp [addedTracks, ih]

theorem getD_eq_true_iff (o : Option Bool) : o.getD false = true ↔ o = some true := by
  cases o with
  | none => simp
  | some b => simp

/-- The peer after `addTrackToPeer` when the track is new to it and `AddTrack`
succeeds. -/
theorem addTrackToPeer_ok {stk : Stack} (now : Nat) {p : SFUPeer} {t : String}
    (hnew : (mapGet p.forwardedTracks t).getD false = false)
    (hok : stk.addTrack p.calls t = true) :
    (addTrackToPeer stk now p t).1.calls = p.calls ++ [⟨.addTrack t, true⟩] ∧
      (addTrackToPeer stk now p t).1.forwardedTracks = mapSet p.forwardedTracks t true ∧
      (addTrackToPeer stk now p t).1.remoteDescriptionSet = p.remoteDescriptionSet ∧
      (addTrackToPeer stk now p t).1.pendingCandidates = p.pendingCandidates := by
  simp [addTrackToPeer, hnew, hok, SFUPeer.record, SFUPeer.scheduleRenegotiation]

theorem attachForwards_spec (stk : Stack) (now : Nat) (peerID : String)
    (tbl : List (String × TrackForward)) (p : SFUPeer)
    (hall : ∀ ext t, stk.addTrack (p.calls ++ ext) t = true) :
    (∀ t, mapGet p.forwardedTracks t = some true →
        mapGet (attachForwards stk now peerID p tbl).forwardedTracks t = some true) ∧
      (∀ t f, (t, f) ∈ tbl → f.senderID ≠ peerID →
        mapGet (attachForwards stk now peerID p tbl).forwardedTracks t = some true) ∧
      (attachForwards stk now peerID p tbl).remoteDescriptionSet = p.remoteDescriptionSet ∧
      (attachForwards stk now peerID p tbl).pendingCandidates = p.pendingCandidates ∧
      ∃ ext, (attachForwards stk now peerID p tbl).calls = p.calls ++ ext ∧
        ∀ t ∈ addedTracks ext, ∃ f, (t, f) ∈ tbl ∧ f.senderID ≠ peerID := by
  induction tbl generalizing p with
  | nil =>
    refine ⟨fun t h => h, ?_, rfl, rfl, [], by simp [attachForwards], ?_⟩
    · intro t f h
      simp at h
    · intro t h
      simp [addedTracks] at h
  | cons e rest ih =>
    obtain ⟨t1, f1⟩ := e
    by_cases hs : f1.senderID = peerID
    · obtain ⟨h1, h2, h3, h4, ext, h5, h6⟩ := ih p hall
      simp only [attachForwards, hs, if_true]
      refine ⟨h1, ?_, h3, h4, ext, h5, ?_⟩
      · intro t f hmem hne
        rcases List.mem_cons.mp hmem with heq | hmem
        · rw [(Prod.mk.inj heq).2] at hne
          exact absurd hs hne
        · exact h2 t f hmem hne
      · intro t ht
        obtain ⟨f, hf, hne⟩ := h6 t ht
        exact ⟨f, List.mem_cons_of_mem _ hf, hne⟩
    · by_cases hhas : (mapGet p.forwardedTracks t1).getD false = true
      · obtain ⟨h1, h2, h3, h4, ext, h5, h6⟩ := ih p hall
        simp only [attachForwards, hs, if_false, hhas, if_true]
        refine ⟨h1, ?_, h3, h4, ext, h5, ?_⟩
        · intro t f hmem hne
          rcases List.mem_cons.mp hmem with heq | hmem
          · rw [(Prod.mk.inj heq).1]
            exact h1 t1 ((getD_eq_true_iff _).mp hhas)
          · exact h2 t f hmem hne
        · intro t ht
          obtain ⟨f, hf, hne⟩ := h6 t ht
          exact ⟨f, List.mem_cons_of_mem _ hf, hne⟩
      · have hnew : (mapGet p.forwardedTracks t1).getD false = false := by simpa using hhas
        have hok : stk.addTrack p.calls t1 = true := by simpa using hall [] t1
        obtain ⟨hc, hft, hr, hp⟩ := addTrackToPeer_ok now hnew hok
        have hall' : ∀ ext t,
            stk.addTrack ((addTrackToPeer stk now p t1).1.calls ++ ext) t = true := by
          intro ext t
          rw [hc, List.append_assoc]
          exact hall _ t
        obtain ⟨h1, h2, h3, h4, ext, h5, h6⟩ := ih (addTrackToPeer stk now p t1).1 hall'
        simp only [attachForwards, hs, if_false, hhas, Bool.false_eq_true]
        refine ⟨?_, ?_, by rw [h3, hr], by rw [h4, hp],
          ⟨.addTrack t1, true⟩ :: ext, by rw [h5, hc]; simp, ?_⟩
        · intro t ht
          apply h1
          rw [hft, mapGet_mapSet]
          by_cases heq : t1 = t
          · simp [heq]
          · simp [heq, ht]
        · intro t f hmem hne
          rcases List.mem_cons.mp hmem with heq | hmem
          · rw [(Prod.mk.inj heq).1]
            apply h1
            rw [hft, mapGet_mapSet]
            simp
          · exact h2 t f hmem hne
        · intro t ht
          simp only [addedTracks, List.mem_cons] at ht
          rcases ht with heq | ht
          · subst heq
            exact ⟨f1, List.mem_cons_self _ _, hs⟩
          · obtain ⟨f, hf, hne⟩ := h6 t ht
            exact ⟨f, List.mem_cons_of_mem _ hf, hne⟩

/-- The peer after a `CreateAnswer` for which the stack makes an answer. -/
theorem CreateAnswer_ok {stk : Stack} {p : SFUPeer} {answer : String}
    (h : stk.createAnswer p.calls = some answer) :
    ∃ p', SFUPeer.CreateAnswer stk p = (p', .ok (stk.localDescription p'.calls)) ∧
      p'.forwardedTracks = p.forwardedTracks ∧
      p'.remoteDescriptionSet = p.remoteDescriptionSet ∧
      p'.pendingCandidates = p.pendingCandidates ∧
      ∃ ext, p'.calls = p.calls ++ ext ∧ addedTracks ext = [] := by
  refine ⟨(p.record .createAnswer true).record (.setLocalDescription answer)
      (stk.setLocalDescription (p.record .createAnswer true).calls answer), ?_, rfl, rfl, rfl,
    [⟨.createAnswer, true⟩, ⟨.setLocalDescription answer,
      stk.setLocalDescription (p.record .createAnswer true).calls answer⟩], ?_, rfl⟩
  · simp only [SFUPeer.CreateAnswer, h]
  · simp [SFUPeer.record]


/-- The offer branch of `HandleSignalMessage` when the stack accepts the SDP and makes an
answer: the peer is stored back after `SetRemoteDescription`, the loop over the forwards
and `CreateAnswer`, and the result is the encoding of the answer. -/
theorem HandleSignalMessage_offer_eq {stk : String → Stack} (js : Json) {now : Nat}
    {r : SFURoom} {peerID : String} {msg : SignalMessage} {peer p3 : SFUPeer}
    {sdp : SessionDescription} {answerSDP : String}
    (hpeer : mapGet r.peers peerID = some peer) (htyp : msg.Typ = SignalTypeOffer)
    (hparse : js.unmarshalSDP msg.Data = some sdp)
    (hsdp : (stk peerID).setRemoteDescription peer.calls sdp.Sdp .offer = true)
    (hca : SFUPeer.CreateAnswer (stk peerID)
        (attachForwards (stk peerID) now peerID
          (peer.remoteDescriptionApplied (stk peerID) sdp.Sdp .offer) r.forwardedTracks) =
      (p3, .ok answerSDP)) :
    SFURoom.HandleSignalMessage stk js now r peerID msg =
      (r.putPeer peerID p3,
       match js.marshalSignal
           { Typ := SignalTypeAnswer,
             Data := js.marshalSDP { Typ := "answer", Sdp := answerSDP },
             FromUser := "", FromName := "", ToUser := "", RoomID := "", Time := 0 } with
       | some bytes => .ok (some bytes)
       | none => .error .marshal) := by
  have hsrd : SFUPeer.SetRemoteDescription (stk peerID) peer sdp.Sdp "offer" =
      (peer.remoteDescriptionApplied (stk peerID) sdp.Sdp .offer, .ok ()) := by
    have hty : sdpTypeOf "offer" = some .offer := by decide
    simp only [SFUPeer.SetRemoteDescription, hty, hsdp, if_true]
  simp only [SFURoom.HandleSignalMessage, hpeer, htyp, if_true, hparse, hsrd, hca]

/-- C10, as the claim states it, fails: the stack accepts the SDP of the offer and the one
`AddTrack` call succeeds, but `CreateAnswer` returns an error, and `HandleSignalMessage`
returns that error and no answer. -/
theorem offer_without_answer :
    (mapGet (SFURoom.HandleSignalMessage (fun _ => noAnswerStack) demoJson 0 demoSFU "bob"
        demoOffer).1.peers "bob").map (fun p => p.calls) =
      some [⟨.setRemoteDescription "v=0" .offer, true⟩, ⟨.addTrack "audio-1", true⟩,
            ⟨.createAnswer, false⟩] ∧
    (SFURoom.HandleSignalMessage (fun _ => noAnswerStack) demoJson 0 demoSFU "bob"
        demoOffer).2 = .error (.stack .createAnswer) :=
  ⟨by decide, by rfl⟩

/-- C10, amended: when `HandleSignalMessage` processes an offer of a known peer whose
payload parses, the stack accepts the SDP, every `AddTrack` call succeeds and
`CreateAnswer` makes an answer, afterwards the received-set of the peer holds the track id
of every forward of the table whose origin is not this peer, no `AddTrack` call was made
for a forward whose origin is this peer, the other peers and the forward table are
unchanged, and the result is the encoding of a `SignalMessage` of type `answer` whose
payload is the answer SDP of the stack. -/
theorem offer_attaches_forwards_and_answers {stk : String → Stack} {js : Json} {now : Nat}
    {r : SFURoom} {peerID : String} {msg : SignalMessage} {peer : SFUPeer}
    {sdp : SessionDescription}
    (hpeer : mapGet r.peers peerID = some peer) (htyp : msg.Typ = SignalTypeOffer)
    (hparse : js.unmarshalSDP msg.Data = some sdp)
    (hnd : (r.forwardedTracks.map Prod.fst).Nodup)
    (hsdp : (stk peerID).setRemoteDescription peer.calls sdp.Sdp .offer = true)
    (htrack : ∀ ext t, (stk peerID).addTrack (peer.calls ++ ext) t = true)
    (hanswer : ∀ ext, (stk peerID).createAnswer (peer.calls ++ ext) ≠ none) :
    ∃ p' ext,
      mapGet (SFURoom.HandleSignalMessage stk js now r peerID msg).1.peers peerID = some p' ∧
      (∀ q, q ≠ peerID →
        mapGet (SFURoom.HandleSignalMessage stk js now r peerID msg).1.peers q =
          mapGet r.peers q) ∧
      (SFURoom.HandleSignalMessage stk js now r peerID msg).1.forwardedTracks =
        r.forwardedTracks ∧
      p'.remoteDescriptionSet = true ∧
      (∀ t f, (t, f) ∈ r.forwardedTracks → f.senderID ≠ peerID →
        mapGet p'.forwardedTracks t = some true) ∧
      p'.calls = peer.calls ++ ext ∧
      (∀ t f, (t, f) ∈ r.forwardedTracks → f.senderID = peerID → t ∉ addedTracks ext) ∧
      (SFURoom.HandleSignalMessage stk js now r peerID msg).2 =
        (match js.marshalSignal
            { Typ := SignalTypeAnswer,
              Data := js.marshalSDP
                { Typ := "answer", Sdp := (stk peerID).localDescription p'.calls },
              FromUser := "", FromName := "", ToUser := "", RoomID := "", Time := 0 } with
         | some bytes => .ok (some bytes)
         | none => .error .marshal) := by
  obtain ⟨a1, _, _, _, ext1, a5, a6⟩ :=
    remoteDescriptionApplied_spec (stk peerID) peer sdp.Sdp .offer
  have hall : ∀ ext t, (stk peerID).addTrack
      ((peer.remoteDescriptionApplied (stk peerID) sdp.Sdp .offer).calls ++ ext) t = true := by
    intro ext t
    rw [a5, List.append_assoc]
    exact htrack _ t
  obtain ⟨_, b2, b3, _, ext2, b5, b6⟩ := attachForwards_spec (stk peerID) now peerID
    r.forwardedTracks (peer.remoteDescriptionApplied (stk peerID) sdp.Sdp .offer) hall
  cases hcreate : (stk peerID).createAnswer (attachForwards (stk peerID) now peerID
      (peer.remoteDescriptionApplied (stk peerID) sdp.Sdp .offer) r.forwardedTracks).calls with
  | none =>
    exfalso
    rw [b5, a5, List.append_assoc] at hcreate
    exact hanswer _ hcreate
  | some answer =>
    obtain ⟨p3, c1, c2, c3, _, ext3, c5, c6⟩ := CreateAnswer_ok hcreate
    have hH := HandleSignalMessage_offer_eq js hpeer htyp hparse hsdp c1
    refine ⟨p3, ext1 ++ ext2 ++ ext3, ?_, ?_, ?_, ?_, ?_, ?_, ?_, ?_⟩
    · rw [hH]
      simp [SFURoom.putPeer, mapGet_mapSet]
    · intro q hq
      rw [hH]
      have : ¬ peerID = q := fun h => hq h.symm
      simp [SFURoom.putPeer, mapGet_mapSet, this]
    · rw [hH]
      rfl
    · rw [c3, b3, a1]
    · intro t f hmem hne
      rw [c2]
      exact b2 t f hmem hne
    · rw [c5, b5, a5]
      simp [List.append_assoc]
    · intro t f hmem hown hin
      simp only [addedTracks_append, a6, c6, List.nil_append, List.append_nil] at hin
      obtain ⟨f', hf', hne⟩ := b6 t hin
      have h1 := mapGet_of_mem hnd hmem
      have h2 := mapGet_of_mem hnd hf'
      rw [h1] at h2
      cases h2
      exact hne hown
    · rw [hH]

theorem offer_attaches_forwards_and_answers_witness :
    mapGet demoSFU.peers "bob" = some (SFUPeer.fresh "bob") ∧
    demoOffer.Typ = SignalTypeOffer ∧
    (mapGet (SFURoom.HandleSignalMessage (fun _ => demoStack) demoJson 0 demoSFU "bob"
        demoOffer).1.peers "bob").map (fun p => mapGet p.forwardedTracks "audio-1") =
      some (some true) := by
  have hpeer : mapGet demoSFU.peers "bob" = some (SFUPeer.fresh "bob") := by decide
  have htyp : demoOffer.Typ = SignalTypeOffer := rfl
  obtain ⟨p', ext, h1, _, _, _, h5, _⟩ :=
    @offer_attaches_forwards_and_answers (fun _ => demoStack) demoJson 0 demoSFU "bob"
      demoOffer (SFUPeer.fresh "bob") { Typ := "offer", Sdp := "v=0" } hpeer htyp (by decide)
      (by decide) rfl (fun _ _ => rfl) (fun _ h => by cases h)
  refine ⟨hpeer, htyp, ?_⟩
  rw [h1]
  have := h5 "audio-1" { stopChanClosed := false, senderID := "alice", senders := [] }
    (by decide) (by decide)
  simp [this]

/-! ## Duplicate tracks -/

/-- C11: `BroadcastTrack` with a track id that already has a forward in the table returns
the room as it was, so the forward table, the sender map of every forward, the
received-set of every peer and the call log of every peer are unchanged and no `AddTrack`
call is made; and `addTrackToPeer` on a peer whose received-set holds the track id leaves
the peer as it was, makes no `AddTrack` call and returns no sender. -/
theorem duplicate_track_is_ignored (stk : String → Stack) (pstk : Stack) (now : Nat)
    (localTrackOk : Bool) (r : SFURoom) (trackID senderID : String) (peer : SFUPeer) :
    (∀ f, mapGet r.forwardedTracks trackID = some f →
        r.BroadcastTrack stk now localTrackOk trackID senderID = r) ∧
      (mapGet peer.forwardedTracks trackID = some true →
        addTrackToPeer pstk now peer trackID = (peer, .ok none)) := by
  constructor
  · intro f hf
    simp only [SFURoom.BroadcastTrack, hf]
  · intro hp
    simp [addTrackToPeer, hp]

theorem duplicate_track_is_ignored_witness :
    mapGet demoSFU.forwardedTracks "audio-1" =
      some { stopChanClosed := false, senderID := "alice", senders := [] } ∧
    demoSFU.BroadcastTrack (fun _ => demoStack) 0 true "audio-1" "alice" = demoSFU :=
  ⟨by decide,
   (duplicate_track_is_ignored (fun _ => demoStack) demoStack 0 true demoSFU "audio-1" "alice"
      (SFUPeer.fresh "bob")).1
      { stopChanClosed := false, senderID := "alice", senders := [] } (by decide)⟩

/-- C12, evaluated on a late join: after `lateJoinCalls` on a stack that accepts every
call, `bob` is a current peer other than the origin `alice` of the forward `audio-1`, its
remote description is set and the track is in its received-set, but it is no key of the
sender map of the forward; `cleanupTrack` then makes no `RemoveTrack` call on `bob` and
leaves the track id in its received-set. -/
theorem late_joiner_missing_from_sender_map :
    unattachedPeers
        (SFURoom.run (fun _ => demoStack) demoJson 0 (NewSFURoom "sfu-1") lateJoinCalls) =
      [("audio-1", "bob")] ∧
    (mapGet (SFURoom.run (fun _ => demoStack) demoJson 0 (NewSFURoom "sfu-1")
        lateJoinCalls).forwardedTracks "audio-1").map (fun f => (f.senderID, f.senders)) =
      some ("alice", []) ∧
    (mapGet (SFURoom.run (fun _ => demoStack) demoJson 0 (NewSFURoom "sfu-1")
        lateJoinCalls).peers "bob").map
          (fun p => (p.remoteDescriptionSet, mapGet p.forwardedTracks "audio-1",
            addedTracks p.calls)) =
      some (true, some true, ["audio-1"]) ∧
    (mapGet (SFURoom.run (fun _ => demoStack) demoJson 0 (NewSFURoom "sfu-1")
        (lateJoinCalls ++ [.cleanupTrack "audio-1"])).peers "bob").map
          (fun p => (mapGet p.forwardedTracks "audio-1", removedTracks p.calls)) =
      some (some true, []) :=
  ⟨by decide, by decide, by decide, by decide⟩

/-! ## Renegotiation -/

theorem renegotiationGuards_eq_true (stk : Stack) (peer : SFUPeer) :
    renegotiationGuards stk peer = true ↔
      peer.remoteDescriptionSet = true ∧ stk.signalingState peer.calls = .stable ∧
        (stk.iceConnectionState peer.calls = .connected ∨
          stk.iceConnectionState peer.calls = .completed) := by
  simp [renegotiationGuards, and_assoc]

theorem createAndSendOffer_of_guards_false {stk : Stack} (r : SFURoom) {peer : SFUPeer}
    (h : renegotiationGuards stk peer = false) : r.createAndSendOffer stk peer = (peer, none) := by
  unfold SFURoom.createAndSendOffer
  by_cases h1 : peer.remoteDescriptionSet = true
  · by_cases h2 : stk.signalingState peer.calls = .stable
    · by_cases h3 : stk.iceConnectionState peer.calls = .connected ∨
          stk.iceConnectionState peer.calls = .completed
      · have := (renegotiationGuards_eq_true stk peer).mpr ⟨h1, h2, h3⟩
        rw [h] at this
        cases this
      · have h3' : stk.iceConnectionState peer.calls ≠ .connected ∧
            stk.iceConnectionState peer.calls ≠ .completed := by
          constructor
          · exact fun h => h3 (Or.inl h)
          · exact fun h => h3 (Or.inr h)
        simp [h1, h2, h3']
    · simp [h1, h2]
  · simp [h1]

theorem createAndSendOffer_of_guards_true {stk : Stack} (r : SFURoom) {peer : SFUPeer}
    (h : renegotiationGuards stk peer = true) :
    r.createAndSendOffer stk peer =
      match stk.createOffer peer.calls with
      | none => (peer.record .createOffer false, none)
      | some offer =>
        ((peer.record .createOffer true).record (.setLocalDescription offer)
            (stk.setLocalDescription (peer.record .createOffer true).calls offer),
         r.onRenegotiationNeeded.map fun cb =>
           { callback := cb, peerID := peer.id,
             offer := stk.localDescription
               ((peer.record .createOffer true).record (.setLocalDescription offer)
                 (stk.setLocalDescription (peer.record .createOffer true).calls offer)).calls }) := by
  obtain ⟨h1, h2, h3⟩ := (renegotiationGuards_eq_true stk peer).mp h
  unfold SFURoom.createAndSendOffer
  have h3' : ¬ (stk.iceConnectionState peer.calls ≠ .connected ∧
      stk.iceConnectionState peer.calls ≠ .completed) := by
    rintro ⟨ha, hb⟩
    rcases h3 with h3 | h3
    · exact ha h3
    · exact hb h3
  simp only [h1, Bool.not_true, Bool.false_eq_true, if_false, h2, ne_eq, not_true_eq_false, h3']

/-- C13: `createAndSendOffer` calls `CreateOffer`, sets a local description or invokes the
renegotiation callback only if the remote description of the peer is set, its signaling
state is stable and its ICE connection state is connected or completed; when one of the
three fails it returns with the peer as it was (no `CreateOffer`, no
`SetLocalDescription`) and without a call of the callback; when the three hold it calls
`CreateOffer` and, if an offer is made and a callback is set, invokes the callback with
the id of the peer and the SDP of the local description. -/
theorem createAndSendOffer_guarded (stk : Stack) (r : SFURoom) (peer : SFUPeer) :
    (¬ (peer.remoteDescriptionSet = true ∧ stk.signalingState peer.calls = .stable ∧
          (stk.iceConnectionState peer.calls = .connected ∨
            stk.iceConnectionState peer.calls = .completed)) →
        r.createAndSendOffer stk peer = (peer, none)) ∧
      (((r.createAndSendOffer stk peer).2 ≠ none ∨
          (r.createAndSendOffer stk peer).1.calls ≠ peer.calls) →
        peer.remoteDescriptionSet = true ∧ stk.signalingState peer.calls = .stable ∧
          (stk.iceConnectionState peer.calls = .connected ∨
            stk.iceConnectionState peer.calls = .completed)) ∧
      ((peer.remoteDescriptionSet = true ∧ stk.signalingState peer.calls = .stable ∧
          (stk.iceConnectionState peer.calls = .connected ∨
            stk.iceConnectionState peer.calls = .completed)) →
        (∃ ok, (r.createAndSendOffer stk peer).1.calls =
            peer.calls ++ [⟨.createOffer, ok⟩] ∨
          ∃ offer ok2, (r.createAndSendOffer stk peer).1.calls =
            peer.calls ++ [⟨.createOffer, true⟩, ⟨.setLocalDescription offer, ok2⟩]) ∧
        ∀ cb offer, r.onRenegotiationNeeded = some cb → stk.createOffer peer.calls = some offer →
          (r.createAndSendOffer stk peer).2 =
            some { callback := cb, peerID := peer.id,
                   offer := stk.localDescription (r.createAndSendOffer stk peer).1.calls }) := by
  have hfalse : ¬ (peer.remoteDescriptionSet = true ∧ stk.signalingState peer.calls = .stable ∧
      (stk.iceConnectionState peer.calls = .connected ∨
        stk.iceConnectionState peer.calls = .completed)) →
      r.createAndSendOffer stk peer = (peer, none) := by
    intro h
    apply createAndSendOffer_of_guards_false
    cases hg : renegotiationGuards stk peer with
    | false => rfl
    | true => exact absurd ((renegotiationGuards_eq_true stk peer).mp hg) h
  refine ⟨hfalse, ?_, ?_⟩
  · intro h
    by_contra hnot
    rw [hfalse hnot] at h
    simp at h
  · intro hg
    have heq := createAndSendOffer_of_guards_true r ((renegotiationGuards_eq_true stk peer).mpr hg)
    constructor
    · rw [heq]
      cases hoff : stk.createOffer peer.calls with
      | none => exact ⟨false, Or.inl (by simp [SFUPeer.record])⟩
      | some offer =>
        exact ⟨true, Or.inr ⟨offer,
          stk.setLocalDescription (peer.record .createOffer true).calls offer,
          by simp [SFUPeer.record]⟩⟩
    · intro cb offer hcb hoff
      rw [heq]
      simp [hoff, hcb]

theorem createAndSendOffer_guarded_witness :
    ¬ ((SFUPeer.fresh "bob").remoteDescriptionSet = true ∧
        demoStack.signalingState (SFUPeer.fresh "bob").calls = .stable ∧
        (demoStack.iceConnectionState (SFUPeer.fresh "bob").calls = .connected ∨
          demoStack.iceConnectionState (SFUPeer.fresh "bob").calls = .completed)) ∧
    demoSFU.createAndSendOffer demoStack (SFUPeer.fresh "bob") = (SFUPeer.fresh "bob", none) := by
  have h : ¬ ((SFUPeer.fresh "bob").remoteDescriptionSet = true ∧
      demoStack.signalingState (SFUPeer.fresh "bob").calls = .stable ∧
      (demoStack.iceConnectionState (SFUPeer.fresh "bob").calls = .connected ∨
        demoStack.iceConnectionState (SFUPeer.fresh "bob").calls = .completed)) := by
    rintro ⟨h1, _⟩
    cases h1
  exact ⟨h, (createAndSendOffer_guarded demoStack demoSFU (SFUPeer.fresh "bob")).1 h⟩

/-- C15: on a room made by `NewSFURoom`, after `SetRenegotiationCallback` with a callback
`cb1`, a second call with any `cb2` (a callback or `nil`) leaves the room unchanged and
the stored callback is `cb1`; so does every sequence of later calls. -/
theorem first_callback_wins (roomID : String) (cb1 : Nat) (cb2 : Option Nat)
    (later : List (Option Nat)) :
    (((NewSFURoom roomID).SetRenegotiationCallback (some cb1)).SetRenegotiationCallback
        cb2).onRenegotiationNeeded = some cb1 ∧
      ((NewSFURoom roomID).SetRenegotiationCallback (some cb1)).SetRenegotiationCallback cb2 =
        (NewSFURoom roomID).SetRenegotiationCallback (some cb1) ∧
      later.foldl SFURoom.SetRenegotiationCallback
          ((NewSFURoom roomID).SetRenegotiationCallback (some cb1)) =
        (NewSFURoom roomID).SetRenegotiationCallback (some cb1) := by
  refine ⟨rfl, rfl, ?_⟩
  induction later with
  | nil => rfl
  | cons cb rest ih => exact ih

/-! ## The debounce timer -/

theorem mapDelete_of_all_key {t : List (Nat × Nat)} {k : Nat} (h : ∀ e ∈ t, e.1 = k) :
    mapDelete t k = [] := by
  induction t with
  | nil => rfl
  | cons e rest ih =>
    obtain ⟨j, d⟩ := e
    have hj : j = k := h (j, d) (List.mem_cons_self _ _)
    simp only [mapDelete, hj, if_true]
    exact ih fun e he => h e (List.mem_cons_of_mem _ he)

/-- The stop in `scheduleRenegotiation` leaves no timer armed, as long as every armed timer
is the one the pointer points to. -/
theorem stop_of_TimersWF {p : SFUPeer} (hwf : p.TimersWF) :
    (match p.renegotiationTimer with
      | some k => stopTimer p.armedTimers k
      | none => p.armedTimers) = [] := by
  cases hp : p.renegotiationTimer with
  | none =>
    simp only []
    cases ha : p.armedTimers with
    | nil => rfl
    | cons e rest =>
      obtain ⟨k, d⟩ := e
      have := hwf k d (by rw [ha]; exact List.mem_cons_self _ _)
      rw [hp] at this
      cases this
  | some k =>
    simp only [stopTimer]
    apply mapDelete_of_all_key
    intro e he
    obtain ⟨j, d⟩ := e
    have := hwf j d he
    rw [hp] at this
    cases this
    rfl

theorem scheduleRenegotiation_armed {p : SFUPeer} (hwf : p.TimersWF) (now delay : Nat) :
    (p.scheduleRenegotiation now delay).armedTimers = [(p.timersMade, now + delay)] ∧
      (p.scheduleRenegotiation now delay).renegotiationTimer = some p.timersMade := by
  constructor
  · show (match p.renegotiationTimer with
      | some k => stopTimer p.armedTimers k
      | none => p.armedTimers) ++ [(p.timersMade, now + delay)] = _
    rw [stop_of_TimersWF hwf]
    rfl
  · rfl

theorem TimersWF_of_sole {p : SFUPeer} {k d : Nat} (ha : p.armedTimers = [(k, d)])
    (hp : p.renegotiationTimer = some k) : p.TimersWF := by
  intro j e hmem
  rw [ha] at hmem
  simp only [List.mem_singleton, Prod.mk.injEq] at hmem
  rw [hp, hmem.1]

theorem TimersWF_scheduleRenegotiation {p : SFUPeer} (hwf : p.TimersWF) (now delay : Nat) :
    (p.scheduleRenegotiation now delay).TimersWF :=
  TimersWF_of_sole (scheduleRenegotiation_armed hwf now delay).1
    (scheduleRenegotiation_armed hwf now delay).2

theorem createAndSendOffer_timers (stk : Stack) (r : SFURoom) (p : SFUPeer) :
    (r.createAndSendOffer stk p).1.armedTimers = p.armedTimers ∧
      (r.createAndSendOffer stk p).1.renegotiationTimer = p.renegotiationTimer := by
  cases hg : renegotiationGuards stk p with
  | false => rw [createAndSendOffer_of_guards_false r hg]; exact ⟨rfl, rfl⟩
  | true =>
    rw [createAndSendOffer_of_guards_true r hg]
    cases stk.createOffer p.calls <;> exact ⟨rfl, rfl⟩

theorem renegotiationTimerFired_timers (stk : Stack) (r : SFURoom) (p : SFUPeer) :
    (r.renegotiationTimerFired stk p).1.armedTimers = p.armedTimers ∧
      (r.renegotiationTimerFired stk p).1.renegotiationTimer = p.renegotiationTimer := by
  unfold SFURoom.renegotiationTimerFired
  cases r.onRenegotiationNeeded with
  | none => exact ⟨rfl, rfl⟩
  | some cb => exact createAndSendOffer_timers stk r p

/-- The timers of a peer stay in order when time passes: an armed timer is still the one
the pointer points to. -/
theorem TimersWF_fireDue (stk : Stack) (r : SFURoom) (now : Nat) (l : List (Nat × Nat))
    (p : SFUPeer) (hwf : p.TimersWF) : (fireDue stk r now l p).1.TimersWF := by
  induction l generalizing p with
  | nil => exact hwf
  | cons e rest ih =>
    obtain ⟨k, d⟩ := e
    by_cases hd : d ≤ now
    · simp only [fireDue, hd, if_true]
      apply ih
      intro j e hmem
      rw [(renegotiationTimerFired_timers stk r _).1] at hmem
      rw [(renegotiationTimerFired_timers stk r _).2]
      exact hwf j e (mem_mapDelete.mp hmem).1
    · simp only [fireDue, hd, if_false]
      exact ih p hwf

theorem TimersWF_elapse (stk : Stack) (r : SFURoom) (now : Nat) {p : SFUPeer}
    (hwf : p.TimersWF) : (p.elapse stk r now).1.TimersWF :=
  TimersWF_fireDue stk r now p.armedTimers p hwf

/-- The peer after `addTrackToPeer` when the track is new to it and `AddTrack` succeeds:
the one armed timer is the new one, to fire 300 ms later. -/
theorem addTrackToPeer_arms {stk : Stack} (now : Nat) {p : SFUPeer} {t : String}
    (hwf : p.TimersWF) (hnew : (mapGet p.forwardedTracks t).getD false = false)
    (hok : stk.addTrack p.calls t = true) :
    (addTrackToPeer stk now p t).1.armedTimers = [(p.timersMade, now + 300)] ∧
      (addTrackToPeer stk now p t).1.renegotiationTimer = some p.timersMade ∧
      (addTrackToPeer stk now p t).1.calls = p.calls ++ [⟨.addTrack t, true⟩] ∧
      (addTrackToPeer stk now p t).1.forwardedTracks = mapSet p.forwardedTracks t true ∧
      (addTrackToPeer stk now p t).1.remoteDescriptionSet = p.remoteDescriptionSet := by
  have hq : (addTrackToPeer stk now p t).1 =
      SFUPeer.scheduleRenegotiation
        { p.record (.addTrack t) true with
          forwardedTracks := mapSet (p.record (.addTrack t) true).forwardedTracks t true }
        now 300 := by
    simp [addTrackToPeer, hnew, hok]
  have hwf1 : SFUPeer.TimersWF
      { p.record (.addTrack t) true with
        forwardedTracks := mapSet (p.record (.addTrack t) true).forwardedTracks t true } := hwf
  rw [hq]
  exact ⟨(scheduleRenegotiation_armed hwf1 now 300).1, rfl, rfl, rfl, rfl⟩

/-- A call that leaves the timers of the peer as they are keeps them in order. -/
theorem TimersWF_of_timers_eq {p q : SFUPeer} (hwf : p.TimersWF)
    (ha : q.armedTimers = p.armedTimers) (hp : q.renegotiationTimer = p.renegotiationTimer) :
    q.TimersWF := by
  intro k d hmem
  rw [ha] at hmem
  rw [hp]
  exact hwf k d hmem

theorem TimersWF_addTrackToPeer (stk : Stack) (now : Nat) {p : SFUPeer} (t : String)
    (hwf : p.TimersWF) : (addTrackToPeer stk now p t).1.TimersWF := by
  by_cases hnew : (mapGet p.forwardedTracks t).getD false = true
  · simp only [addTrackToPeer, hnew, if_true]
    exact hwf
  · have hnew1 : (mapGet p.forwardedTracks t).getD false = false := by
      cases h : (mapGet p.forwardedTracks t).getD false
      · rfl
      · exact absurd h hnew
    by_cases hok : stk.addTrack p.calls t = true
    · have h := addTrackToPeer_arms now hwf hnew1 hok
      exact TimersWF_of_sole h.1 h.2.1
    · have hq : (addTrackToPeer stk now p t).1 = p.record (.addTrack t) false := by
        simp [addTrackToPeer, hnew1, hok]
      rw [hq]
      exact TimersWF_of_timers_eq hwf rfl rfl

theorem TimersWF_createAndSendOffer (stk : Stack) (r : SFURoom) {p : SFUPeer}
    (hwf : p.TimersWF) : (r.createAndSendOffer stk p).1.TimersWF :=
  TimersWF_of_timers_eq hwf (createAndSendOffer_timers stk r p).1
    (createAndSendOffer_timers stk r p).2

/-- C16: the handler, given a well-formed body with `limits` 0 (the value of an unspecified
field as well), makes a room of capacity 0 that refuses the member of its own master,
where the claim has a room of capacity 10; the default 10 is given on the other path only,
for a body that does not bind, and the room made there admits its master. -/
theorem CreateRoom_zero_limits_admits_nobody :
    ((Router.CreateRoom NewManager State.init (some { Name := "R", Limits := 0 })
        "master-1" "room-1" "sfu-1").2.1.rooms[0]?).map (fun room => room.limits) = some 0 ∧
    (Join (NewMember (Router.CreateRoom NewManager State.init (some { Name := "R", Limits := 0 })
        "master-1" "room-1" "sfu-1").2.1 "master-1" "Olga" "u-0" "peer-0").1 0 0).map
          Prod.snd = some false ∧
    ((Router.CreateRoom NewManager State.init none
        "master-1" "room-1" "sfu-1").2.1.rooms[0]?).map (fun room => room.limits) = some 10 ∧
    (Join (NewMember (Router.CreateRoom NewManager State.init none
        "master-1" "room-1" "sfu-1").2.1 "master-1" "Olga" "u-0" "peer-0").1 0 0).map
          Prod.snd = some true :=
  ⟨by decide, by decide, by decide, by decide⟩

/-! ## The JSON object of a `SignalMessage` -/

/-- The object of a message, member by member. -/
theorem toWire_eq (compact : Bytes → Option Bytes) (m : SignalMessage) :
    m.toWire compact =
      match (if m.Data = [] then some []
             else (compact m.Data).map fun b => [("data", WireValue.raw b)]) with
      | none => none
      | some dataMember =>
        some ([("type", .str m.Typ)] ++ dataMember ++
          (if m.FromUser = "" then [] else [("from_user", .str m.FromUser)]) ++
          (if m.FromName = "" then [] else [("from_name", .str m.FromName)]) ++
          (if m.ToUser = "" then [] else [("to_user", .str m.ToUser)]) ++
          (if m.RoomID = "" then [] else [("room_id", .str m.RoomID)]) ++
          (if m.Time = 0 then [] else [("time", .num m.Time)])) := by
  obtain ⟨typ, data, fromUser, fromName, toUser, roomID, time⟩ := m
  by_cases h1 : data = [] <;> by_cases h2 : fromUser = "" <;> by_cases h3 : fromName = "" <;>
    by_cases h4 : toUser = "" <;> by_cases h5 : roomID = "" <;> by_cases h6 : time = 0 <;>
    cases hc : compact data <;>
    simp [SignalMessage.toWire, signalMessageTags, SignalMessage.fields, marshalFields,
      WireValue.isEmpty, writeValue, h1, h2, h3, h4, h5, h6, hc]

/-- C17, as the claim states it, fails: the field `type` of the message is empty and its
member is on the wire all the same, whatever `encoding/json` writes for a payload; it is
the only member of the object. -/
theorem empty_type_is_on_the_wire :
    blankMessage.Typ = "" ∧
    mapGet signalMessageTags "type" = some false ∧
    blankMessage.toWire demoCompact = some [("type", .str "")] ∧
    ∀ compact, blankMessage.toWire compact = some [("type", .str "")] :=
  ⟨rfl, by decide, by decide, fun _ => rfl⟩

/-- C17, amended: the encoding fails exactly when the payload is not empty and
`encoding/json` refuses it.  Otherwise, member by member, decoding the JSON object of a
message gives back the message with the payload as it was written: equal to the original
in `type`, `from_user`, `from_name`, `to_user`, `room_id` and `time`, and equal in `data`
exactly when the payload is empty or is written as it is.  The member `type` is always on
the wire, also when the field is empty; each of the members `data`, `from_user`,
`from_name`, `to_user`, `room_id` and `time` is left out exactly when its field is empty,
and is then decoded as empty. -/
theorem wire_round_trip (compact : Bytes → Option Bytes) (m : SignalMessage) :
    (m.toWire compact = none ↔ m.Data ≠ [] ∧ compact m.Data = none) ∧
    ∀ w, m.toWire compact = some w →
      SignalMessage.ofWire w =
        { m with Data := if m.Data = [] then [] else (compact m.Data).getD [] } ∧
      (SignalMessage.ofWire w = m ↔ m.Data = [] ∨ compact m.Data = some m.Data) ∧
      mapGet w "type" = some (.str m.Typ) ∧
      (mapGet w "data" = none ↔ m.Data = []) ∧
      (mapGet w "from_user" = none ↔ m.FromUser = "") ∧
      (mapGet w "from_name" = none ↔ m.FromName = "") ∧
      (mapGet w "to_user" = none ↔ m.ToUser = "") ∧
      (mapGet w "room_id" = none ↔ m.RoomID = "") ∧
      (mapGet w "time" = none ↔ m.Time = 0) := by
  obtain ⟨typ, data, fromUser, fromName, toUser, roomID, time⟩ := m
  by_cases h1 : data = []
  · constructor
    · simp [toWire_eq, h1]
    · intro w hw
      simp only [toWire_eq, h1, if_true, Option.some.injEq] at hw
      subst hw
      subst h1
      by_cases h2 : fromUser = "" <;> by_cases h3 : fromName = "" <;>
        by_cases h4 : toUser = "" <;> by_cases h5 : roomID = "" <;> by_cases h6 : time = 0 <;>
        simp [SignalMessage.ofWire, wireString, wireRaw, wireNumber, mapGet,
          h2, h3, h4, h5, h6]
  · cases hc : compact data with
    | none =>
      constructor
      · simp [toWire_eq, h1, hc]
      · intro w hw
        simp [toWire_eq, h1, hc] at hw
    | some c =>
      constructor
      · simp [toWire_eq, h1, hc]
      · intro w hw
        simp only [toWire_eq, h1, if_false, hc, Option.map_some',
          Option.some.injEq] at hw
        subst hw
        by_cases h2 : fromUser = "" <;> by_cases h3 : fromName = "" <;>
          by_cases h4 : toUser = "" <;> by_cases h5 : roomID = "" <;> by_cases h6 : time = 0 <;>
          simp [SignalMessage.ofWire, wireString, wireRaw, wireNumber, mapGet,
            h1, h2, h3, h4, h5, h6, hc, eq_comm]

theorem wire_round_trip_witness :
    spacedMessage.toWire demoCompact =
      some [("type", .str "chat"), ("data", .raw [123, 34, 97, 34, 58, 49, 125]),
            ("from_user", .str "u-bob"), ("time", .num 7)] ∧
    SignalMessage.ofWire
        [("type", .str "chat"), ("data", .raw [123, 34, 97, 34, 58, 49, 125]),
         ("from_user", .str "u-bob"), ("time", .num 7)] =
      { spacedMessage with Data := [123, 34, 97, 34, 58, 49, 125] } :=
  ⟨by decide,
    ((wire_round_trip demoCompact spacedMessage).2 _
      (show spacedMessage.toWire demoCompact = some _ by decide)).1⟩


/-! ## Members that join once -/

theorem exec_of_execOpen {s s' : State} {cs : List Call} (h : execOpen s cs = some s') :
    exec s cs = some s' := by
  induction cs generalizing s with
  | nil => exact h
  | cons c rest ih =>
    simp only [execOpen] at h
    by_cases hj : c.joinsOpen s = true
    · simp only [hj, if_true, Option.bind_eq_some] at h
      obtain ⟨s1, h1, h2⟩ := h
      simp only [exec, h1, Option.some_bind]
      exact ih h2
    · simp [hj] at h

theorem Reachable_of_ReachableOpen {s : State} (h : ReachableOpen s) : Reachable s := by
  obtain ⟨cs, hcs⟩ := h
  exact ⟨cs, exec_of_execOpen hcs⟩

theorem ClosedOutside_Join {s s' : State} {r : RoomRef} {m : MemberRef} {b : Bool}
    (hco : ClosedOutside s) (hopen : (Call.join r m).joinsOpen s = true)
    (h : Join s r m = some (s', b)) : ClosedOutside s' := by
  cases hr : s.rooms[r]? with
  | none => simp [Join, hr] at h
  | some room =>
    cases hm : s.members[m]? with
    | none => simp [Join, hr, hm] at h
    | some mem =>
      by_cases hrej : 0 < mem.roomIndex ∨ room.limits ≤ (room.member.length : Int)
      · rw [Join_reject hr hm hrej] at h
        cases h
        exact hco
      · have hslot : ¬ 0 < mem.roomIndex := fun h1 => hrej (Or.inl h1)
        have hlt : (room.member.length : Int) < room.limits := by
          by_contra h1
          exact hrej (Or.inr (not_lt.mp h1))
        obtain ⟨i, hscan⟩ := Join_scan_finds hlt
        rw [Join_accept hr hm hslot hlt hscan] at h
        simp only [Option.some.injEq, Prod.mk.injEq] at h
        rw [← h.1]
        intro m0 mem0 hm0 hclosed
        simp only [getElem?_set_of_some hm] at hm0
        by_cases hm0m : m0 = m
        · simp only [hm0m, if_true, Option.some.injEq] at hm0
          rw [← hm0] at hclosed
          simp only [Call.joinsOpen, hm] at hopen
          simp only at hclosed
          rw [hclosed] at hopen
          cases hopen
        · simp only [hm0m, if_false] at hm0
          exact hco m0 mem0 hm0 hclosed

theorem ClosedOutside_Leave {s s' : State} {r : RoomRef} {m : MemberRef} {b : Bool}
    (hwf : WF s) (hco : ClosedOutside s) (h : Leave s r m = some (s', b)) :
    ClosedOutside s' := by
  cases hr : s.rooms[r]? with
  | none => simp [Leave, hr] at h
  | some room =>
    cases hm : s.members[m]? with
    | none => simp [Leave, hr, hm] at h
    | some mem =>
      by_cases hj : mem.roomIndex < 0 ∨ mem.room ≠ some r
      · rw [Leave_not_joined hr hm hj] at h
        cases h
        exact hco
      · have hidx : ¬ mem.roomIndex < 0 := fun h1 => hj (Or.inl h1)
        have hroom : mem.room = some r := by
          by_contra h1
          exact hj (Or.inr h1)
        by_cases hown : mem.index = room.master
        · rw [Leave_owner hr hm hidx hroom hown] at h
          cases hd : dissolveAll s.members room.member with
          | none => simp [hd] at h
          | some ms =>
            simp only [hd, Option.map_some', Option.some.injEq, Prod.mk.injEq] at h
            rw [← h.1]
            intro m0 mem0 hm0 hclosed
            simp only at hm0
            by_cases hin : m0 ∈ room.member.map Prod.snd
            · obtain ⟨mem1, _, _, hres⟩ := (dissolveAll_spec hd m0).1 hin
              rw [hm0] at hres
              cases hres
              rfl
            · rw [(dissolveAll_spec hd m0).2 hin] at hm0
              exact hco m0 mem0 hm0 hclosed
        · obtain ⟨_, hget, _, _⟩ := joined_slot hwf hr hm hroom
          rw [Leave_member hr hm hidx hroom hown hget] at h
          cases hcl : mem.send.close with
          | none => simp [hcl] at h
          | some ch =>
            simp only [hcl, Option.map_some', Option.some.injEq, Prod.mk.injEq] at h
            rw [← h.1]
            intro m0 mem0 hm0 hclosed
            simp only [getElem?_set_of_some hm] at hm0
            by_cases hm0m : m0 = m
            · simp only [hm0m, if_true, Option.some.injEq] at hm0
              rw [← hm0]
            · simp only [hm0m, if_false] at hm0
              exact hco m0 mem0 hm0 hclosed

theorem ClosedOutside_Broadcast {s s' : State} {r : RoomRef} {msg : Bytes} {senderID : String}
    (hco : ClosedOutside s) (h : Broadcast s r msg senderID = some s') : ClosedOutside s' := by
  unfold Broadcast at h
  cases hr : s.rooms[r]? with
  | none => simp [hr] at h
  | some room =>
    simp only [hr] at h
    cases hb : broadcastAll s.members msg senderID room.member with
    | none => simp [hb] at h
    | some ms =>
      simp only [hb, Option.some.injEq] at h
      subst h
      intro m0 mem0 hm0 hclosed
      simp only at hm0
      obtain ⟨mem1, hm1, hfr⟩ := frame_some (broadcastAll_frame hb m0).symm hm0
      simp only [Member.frame, Prod.mk.injEq] at hfr
      rw [← hfr.2.2.1]
      exact hco m0 mem1 hm1 (by rw [hfr.2.2.2.2.2.1]; exact hclosed)

theorem ClosedOutside_step {s s' : State} {c : Call} (hwf : WF s) (hco : ClosedOutside s)
    (hopen : c.joinsOpen s = true) (h : step s c = some s') : ClosedOutside s' := by
  cases c with
  | newRoom name masterID limits id sfuID =>
    simp only [step, Option.some.injEq] at h
    subst h
    exact hco
  | newMember userID name freshID peerID =>
    simp only [step, Option.some.injEq] at h
    subst h
    intro m0 mem0 hm0 hclosed
    simp only [NewMember, getElem?_append_one] at hm0
    by_cases hlen : m0 = s.members.length
    · simp only [hlen, if_true, Option.some.injEq] at hm0
      rw [← hm0]
    · simp only [hlen, if_false] at hm0
      exact hco m0 mem0 hm0 hclosed
  | join r m =>
    simp only [step, Option.map_eq_some'] at h
    obtain ⟨⟨s1, b⟩, h1, h2⟩ := h
    simp only at h2
    subst h2
    exact ClosedOutside_Join hco hopen h1
  | leave r m =>
    simp only [step, Option.map_eq_some'] at h
    obtain ⟨⟨s1, b⟩, h1, h2⟩ := h
    simp only at h2
    subst h2
    exact ClosedOutside_Leave hwf hco h1
  | broadcast r msg senderID =>
    simp only [step] at h
    exact ClosedOutside_Broadcast hco h

theorem ClosedOutside_execOpen {s s' : State} {cs : List Call} (hwf : WF s)
    (hco : ClosedOutside s) (h : execOpen s cs = some s') : ClosedOutside s' := by
  induction cs generalizing s with
  | nil =>
    simp only [execOpen, Option.some.injEq] at h
    subst h
    exact hco
  | cons c rest ih =>
    simp only [execOpen] at h
    by_cases hj : c.joinsOpen s = true
    · simp only [hj, if_true, Option.bind_eq_some] at h
      obtain ⟨s1, h1, h2⟩ := h
      exact ih (WF_step hwf h1) (ClosedOutside_step hwf hco hj h1) h2
    · simp [hj] at h

theorem ClosedOutside_of_ReachableOpen {s : State} (h : ReachableOpen s) : ClosedOutside s := by
  obtain ⟨cs, hcs⟩ := h
  apply ClosedOutside_execOpen WF_init _ hcs
  intro m mem hm
  simp [State.init] at hm

/-- In a well-formed heap whose closed send queues belong to members outside every room,
the members of every table have open send queues. -/
theorem table_members_open {s : State} (hwf : WF s) (hco : ClosedOutside s) {r : RoomRef}
    {room : Room} (hr : s.rooms[r]? = some room) {i : Int} {m : MemberRef} {mem : Member}
    (hmem : (i, m) ∈ room.member) (hm : s.members[m]? = some mem) :
    mem.send.closed = false := by
  obtain ⟨_, _, mem0, hm0, hroom, _⟩ := (hwf.1 r room hr).2 i m hmem
  rw [hm] at hm0
  cases hm0
  cases hc : mem.send.closed with
  | false => rfl
  | true =>
    rw [hco m mem hm hc] at hroom
    cases hroom

/-- C18, as the claim states it, fails: after `rejoinTrace` the table of the room holds
user `a` at slot 2, and the send queue of `a` is closed although `a` has a room and slot
2. -/
theorem rejoined_member_is_closed_in_table :
    Reachable rejoinState ∧
    (rejoinState.rooms[0]?).map (fun room => mapGet room.member 2) = some (some 1) ∧
    (rejoinState.members[1]?).map
        (fun mem => (mem.index, mem.send.closed, mem.room, mem.roomIndex)) =
      some ("a", true, some 0, 2) :=
  ⟨⟨rejoinTrace, by decide⟩, by decide, by decide⟩

/-- C18, amended: in every state reached by `NewRoom`, `NewMember`, `Join`, `Leave` and
`Broadcast` calls in which `Join` is never called on a member whose send queue is closed,
every member held in the table of a room has an open send queue and every member whose
send queue is closed has no room and slot `-1`; `Leave` on a member that is not joined to
the room returns false and changes nothing; and in such a state every `Leave` and every
`Broadcast` returns: no send queue is closed twice and no message is sent on a closed
queue. -/
theorem joined_members_have_open_queues {s : State} (hs : ReachableOpen s) :
    (∀ (r : RoomRef) (room : Room) (i : Int) (m : MemberRef) (mem : Member),
        s.rooms[r]? = some room → (i, m) ∈ room.member → s.members[m]? = some mem →
        mem.send.closed = false) ∧
      (∀ (m : MemberRef) (mem : Member), s.members[m]? = some mem → mem.send.closed = true →
        mem.room = none ∧ mem.roomIndex = -1) ∧
      (∀ (r : RoomRef) (m : MemberRef) (room : Room) (mem : Member),
        s.rooms[r]? = some room → s.members[m]? = some mem →
        (mem.roomIndex < 0 ∨ mem.room ≠ some r) → Leave s r m = some (s, false)) ∧
      (∀ (r : RoomRef) (m : MemberRef) (room : Room) (mem : Member),
        s.rooms[r]? = some room → s.members[m]? = some mem → Leave s r m ≠ none) ∧
      (∀ (r : RoomRef) (room : Room) (msg : Bytes) (senderID : String),
        s.rooms[r]? = some room → Broadcast s r msg senderID ≠ none) := by
  have hwf := WF_of_Reachable (Reachable_of_ReachableOpen hs)
  have hco := ClosedOutside_of_ReachableOpen hs
  refine ⟨?_, ?_, ?_, ?_, ?_⟩
  · intro r room i m mem hr hmem hm
    exact table_members_open hwf hco hr hmem hm
  · intro m mem hm hclosed
    have hnone := hco m mem hm hclosed
    refine ⟨hnone, ?_⟩
    rcases (hwf.2 m mem hm).2 with h | ⟨r, _, h, _⟩
    · exact h.2
    · rw [hnone] at h
      cases h
  · intro r m room mem hr hm hj
    exact Leave_not_joined hr hm hj
  · intro r m room mem hr hm
    by_cases hj : mem.roomIndex < 0 ∨ mem.room ≠ some r
    · rw [Leave_not_joined hr hm hj]
      simp
    · have hidx : ¬ mem.roomIndex < 0 := fun h1 => hj (Or.inl h1)
      have hroom : mem.room = some r := by
        by_contra h1
        exact hj (Or.inr h1)
      obtain ⟨hin, hget, _, _⟩ := joined_slot hwf hr hm hroom
      by_cases hown : mem.index = room.master
      · have halloc : ∀ m0 ∈ room.member.map Prod.snd,
            ∃ mem0, s.members[m0]? = some mem0 ∧ mem0.send.closed = false := by
          intro m0 hm0
          obtain ⟨e, he, hsnd⟩ := List.mem_map.mp hm0
          obtain ⟨i, m1⟩ := e
          simp only at hsnd
          subst hsnd
          obtain ⟨_, _, mem0, hmem0, _, _⟩ := (hwf.1 r room hr).2 i m1 he
          exact ⟨mem0, hmem0, table_members_open hwf hco hr he hmem0⟩
        obtain ⟨ms, hd⟩ := dissolveAll_succeeds (refs_nodup (hwf.1 r room hr)) halloc
        rw [Leave_owner hr hm hidx hroom hown, hd]
        simp
      · rw [Leave_member hr hm hidx hroom hown hget,
          Chan.close_of_open (table_members_open hwf hco hr hin hm)]
        simp
  · intro r room msg senderID hr
    have halloc : ∀ m0 ∈ room.member.map Prod.snd, ∃ mem0, s.members[m0]? = some mem0 ∧
        (mem0.index ≠ senderID → mem0.send.closed = false) := by
      intro m0 hm0
      obtain ⟨e, he, hsnd⟩ := List.mem_map.mp hm0
      obtain ⟨i, m1⟩ := e
      simp only at hsnd
      subst hsnd
      obtain ⟨_, _, mem0, hmem0, _, _⟩ := (hwf.1 r room hr).2 i m1 he
      exact ⟨mem0, hmem0, fun _ => table_members_open hwf hco hr he hmem0⟩
    obtain ⟨ms, hb, _⟩ :=
      broadcastAll_spec msg senderID (refs_nodup (hwf.1 r room hr)) halloc
    simp [Broadcast, hr, hb]

theorem joined_members_have_open_queues_witness :
    ReachableOpen demoState ∧
    (demoState.members[1]?).map (fun mem => mem.send.closed) = some false := by
  have hs : ReachableOpen demoState := ⟨demoTrace, by decide⟩
  have hm : demoState.members[1]? = some
      { index := "a", name := "Ann", room := some 0, roomIndex := 2, send := Chan.make 256,
        sfuPeerID := "peer-1" } := by decide
  have h := (joined_members_have_open_queues hs).1 0 demoRoom 2 1 _ (by decide) (by decide) hm
  exact ⟨hs, by rw [hm]; exact congrArg some h⟩

end Sparkle
